import Mathlib

/-!
Shallow embedding of the ERIS encoder/decoder (files eris.go and
eris_decode.go) and proofs about it.

Bytes are modelled as natural numbers.  The two cryptographic primitives
(BLAKE2b-256 and the ChaCha20 keystream) are abstracted into a `Crypto`
structure: the Go code fixes their output sizes at the type level
(`[32]byte`, a byte stream), which the structure records as length laws.
The encoder's `WriteFunc` callback is modelled by collecting the emitted
blocks into a list; each emission record additionally carries the plaintext
and the tree level it came from, which the Go code knows at the call site
but does not pass to the callback (pure instrumentation, used only to state
properties).
-/

namespace Eris

/-- A byte, modelled as a natural number (< 256 for real data). -/
abbrev Byte := Nat

/-- RefSize from eris.go: references are 32 bytes. -/
def RefSize : Nat := 32

/-- KeySize from eris.go: keys are 32 bytes. -/
def KeySize : Nat := 32

/-- Abstraction of the concrete crypto used by eris.go:
`refHash` is blake2b.Sum256 (unkeyed), `keyHash b s` is blake2b.New256
keyed with the convergence secret `s` applied to `b`, and `ksByte key i`
is byte `i` of the ChaCha20 keystream for `key` under the all-zero nonce.
The length fields reflect the Go types `[32]byte`. -/
structure Crypto where
  refHash : List Byte → List Byte
  keyHash : List Byte → List Byte → List Byte
  ksByte : List Byte → Nat → Byte
  refHash_len : ∀ b, (refHash b).length = RefSize
  keyHash_len : ∀ b s, (keyHash b s).length = KeySize

/-- XORKeyStream of a stream cipher: byte `j` of the input is xored with
keystream byte `i + j`.  Used for both `encrypt` and `decrypt` in the Go
code (the two are the same operation). -/
def xorKeyStream (C : Crypto) (key : List Byte) : Nat → List Byte → List Byte
  | _, [] => []
  | i, b :: rest => (b ^^^ C.ksByte key i) :: xorKeyStream C key (i + 1) rest

/-- marshalBlock from eris.go: compute the read key from the plaintext
(keyed by the secret), encrypt, and hash the ciphertext to get the
reference.  Returns (eblock, ref, readKey). -/
def marshalBlock (C : Crypto) (ublock secret : List Byte) :
    List Byte × List Byte × List Byte :=
  let readKey := C.keyHash ublock secret
  let eblock := xorKeyStream C readKey 0 ublock
  let ref := C.refHash eblock
  (eblock, ref, readKey)

/-- pad from eris.go: ISO/IEC 7816-4 padding of length `n`: a 0x80 byte
followed by zeros (empty when `n = 0`). -/
def pad (n : Nat) : List Byte :=
  if n = 0 then [] else 0x80 :: List.replicate (n - 1) 0

/-- padContentBlock from eris.go: pad the final (short) content block up
to the block size. -/
def padContentBlock (block : List Byte) (size : Nat) : List Byte :=
  let n := size - block.length % size
  let n' := if n = 0 then size else n
  block ++ pad n'

/-- The read loop of encode in eris.go, structured on a fuel bound so the
definition computes by structural recursion: io.ReadFull splits the input
into full blocks of `size` bytes; the terminal (short, possibly empty)
read is padded.  An input that is an exact multiple of `size` therefore
produces a trailing block of pure padding.  With `fuel ≥ input.length`
(as `splitBlocks` always passes) the fuel never runs out: each iteration
consumes at least one byte of input, and the fuel-0 case is only reached
with an empty input, where the answer agrees with the guard being
false. -/
def splitBlocksF (size : Nat) : Nat → List Byte → List (List Byte)
  | 0, input => [padContentBlock input size]
  | fuel + 1, input =>
      if 0 < size ∧ size ≤ input.length then
        input.take size :: splitBlocksF size fuel (input.drop size)
      else
        [padContentBlock input size]

/-- The read loop of encode in eris.go (see splitBlocksF). -/
def splitBlocks (size : Nat) (input : List Byte) : List (List Byte) :=
  splitBlocksF size input.length input

/-- One emitted block: what the Go WriteFunc receives (eblock, ref, key),
plus instrumentation recording the plaintext `ublock` and the tree
`level` of the block (0 for content blocks, ≥ 1 for inner nodes). -/
structure EmitRec where
  level : Nat
  ublock : List Byte
  eblock : List Byte
  ref : List Byte
  key : List Byte
  deriving DecidableEq

/-- The mutable state of one accumulator from eris.go: its RefKeyPairs
buffer and the cursor N. -/
structure AccState where
  buf : List Byte
  n : Nat
  deriving DecidableEq

/-- Semantics of Go's `copy(l[off:off+len(d)], d)`: overwrite `d.length`
bytes of `l` starting at offset `off` (the in-bounds case; Go panics out
of bounds, which claim C10 shows cannot happen). -/
def setBytes (l : List Byte) (off : Nat) (d : List Byte) : List Byte :=
  l.take off ++ d ++ l.drop (off + d.length)

/-- accumulator.add from eris.go: copy the reference then the key into
the buffer at the cursor, advancing it by RefSize + KeySize. -/
def accAdd (a : AccState) (ref key : List Byte) : AccState :=
  let buf1 := setBytes a.buf a.n ref
  let buf2 := setBytes buf1 (a.n + RefSize) key
  { buf := buf2, n := a.n + RefSize + KeySize }

/-- accumulator.reset from eris.go: zero the whole buffer and reset the
cursor. -/
def accReset (a : AccState) : AccState :=
  { buf := List.replicate a.buf.length 0, n := 0 }

/-- newAccumulator's fresh state from eris.go: an all-zero buffer of
block size with cursor 0. -/
def accNew (size : Nat) : AccState :=
  { buf := List.replicate size 0, n := 0 }

/-- accumulator.RecurAccumulate from eris.go, with the parent chain made
explicit as a list (head = this accumulator, tail = its parents).  When
the buffer is full it is marshalled and emitted, its reference-key pair
recurses into the parent (lazily created by the `[]` case, matching
`a.Parent == nil` in Go), and the buffer is reset; then the new pair is
added.  `level` is the level of the head accumulator (instrumentation for
the emission records).  Returns the new chain and the blocks emitted. -/
def recurAccumulate (C : Crypto) (secret : List Byte) (size : Nat) :
    Nat → List AccState → List Byte → List Byte → List AccState × List EmitRec
  | _level, [], ref, key =>
      ([accAdd (accNew size) ref key], [])
  | level, a :: rest, ref, key =>
      if a.n = size then
        let m := marshalBlock C a.buf secret
        let pr := recurAccumulate C secret size (level + 1) rest m.2.1 m.2.2
        (accAdd (accReset a) ref key :: pr.1,
         ⟨level, a.buf, m.1, m.2.1, m.2.2⟩ :: pr.2)
      else
        (accAdd a ref key :: rest, [])

/-- recurMarshalBlocks applied to a content block in eris.go: marshal the
plaintext block, emit it, and accumulate its reference-key pair into the
level-1 accumulator chain. -/
def marshalAccumulate (C : Crypto) (secret : List Byte) (size : Nat)
    (chain : List AccState) (ublock : List Byte) : List AccState × List EmitRec :=
  let m := marshalBlock C ublock secret
  let pr := recurAccumulate C secret size 1 chain m.2.1 m.2.2
  (pr.1, ⟨0, ublock, m.1, m.2.1, m.2.2⟩ :: pr.2)

/-- The encode loop of eris.go applied to the already-split content
blocks, threading the accumulator chain and collecting emissions. -/
def encodeSteps (C : Crypto) (secret : List Byte) (size : Nat) :
    List AccState × List EmitRec → List (List Byte) → List AccState × List EmitRec
  | st, [] => st
  | st, ub :: rest =>
      let pr := marshalAccumulate C secret size st.1 ub
      encodeSteps C secret size (pr.1, st.2 ++ pr.2) rest

/-- The read capability (Ref struct in eris.go). -/
structure Ref where
  blockSize : Nat
  level : Nat
  ref : List Byte
  key : List Byte
  deriving DecidableEq

/-- accumulator.Flush from eris.go over the explicit chain.  The single
accumulator (`[a]`, Go's `a.Parent == nil`) is the root: one buffered
reference-key pair collapses into the root capability at level − 1,
otherwise the buffer is emitted as the root block at this level.  An
interior accumulator emits its buffer, pushes the resulting pair into the
parent chain and recurses.  The recursion is not structural (a push can
lazily grow the chain), so it is fuel-indexed; `none` models
non-termination/unreachable states and encode passes ample fuel. -/
def flush (C : Crypto) (secret : List Byte) (size : Nat) :
    Nat → Nat → List AccState → Option (List EmitRec × Ref)
  | 0, _, _ => none
  | _ + 1, _, [] => none
  | _ + 1, level, [a] =>
      if a.n = RefSize + KeySize then
        some ([], { blockSize := size, level := level - 1,
                    ref := a.buf.take RefSize,
                    key := (a.buf.drop RefSize).take KeySize })
      else
        let m := marshalBlock C a.buf secret
        some ([⟨level, a.buf, m.1, m.2.1, m.2.2⟩],
              { blockSize := size, level := level, ref := m.2.1, key := m.2.2 })
  | fuel + 1, level, a :: b :: rest =>
      let m := marshalBlock C a.buf secret
      let pr := recurAccumulate C secret size (level + 1) (b :: rest) m.2.1 m.2.2
      match flush C secret size fuel (level + 1) pr.1 with
      | none => none
      | some (es2, root) =>
          some (⟨level, a.buf, m.1, m.2.1, m.2.2⟩ :: (pr.2 ++ es2), root)

/-- encode from eris.go: reject block sizes not divisible by the
reference-key pair size (newAccumulator's check), split the input into
padded content blocks, run them through the marshalling loop, and flush
the accumulator chain for the root capability.  Returns the emitted
blocks in emission order together with the root Ref. -/
def encode (C : Crypto) (secret : List Byte) (size : Nat) (input : List Byte) :
    Option (List EmitRec × Ref) :=
  if size % (RefSize + KeySize) ≠ 0 then none
  else
    let st := encodeSteps C secret size ([accNew size], []) (splitBlocks size input)
    match flush C secret size (st.1.length * (size / 64 + 1) + 1) 1 st.1 with
    | none => none
    | some (es2, root) => some (st.2 ++ es2, root)

/-! Decoder (eris_decode.go).  The storage oracle is a function from a
reference to either the stored bytes or an error, and an io.Writer is a
state type `σ` with a write operation returning the new state and an
optional error (the byte count returned by Go's Write is ignored by every
caller in the source, so it is dropped). -/

/-- An io.Writer: state plus a write that may report an error. -/
structure Writer (σ : Type) where
  write : σ → List Byte → σ × Option String

/-- A Storage oracle (Storage.Get in eris_decode.go). -/
def Storage : Type := List Byte → Except String (List Byte)

/-- checkBlockSize from eris_decode.go: only the two published block
sizes are admissible. -/
def checkBlockSize (bs : Nat) : Option String :=
  if bs = 1024 then none
  else if bs = 32 * 1024 then none
  else some "unhandled block size"

/-- checkedGet from eris_decode.go: fetch the block, check its length
against the block size, and check that its hash equals the requested
reference. -/
def checkedGet (C : Crypto) (s : Storage) (ref : List Byte) (size : Nat) :
    Except String (List Byte) :=
  match s ref with
  | Except.error e => Except.error e
  | Except.ok b =>
      if size ≠ b.length then
        Except.error "error fetching reference from Storage: returned block incorrect size"
      else if C.refHash b ≠ ref then
        Except.error "error fetching reference from Storage: returned block did not match reference"
      else
        Except.ok b

/-- refKeyPairAllZero from eris_decode.go. -/
def refKeyPairAllZero (r k : List Byte) : Bool :=
  r.all (· = 0) && k.all (· = 0)

/-- The reference-key-pair loop inside decodeRecur in eris_decode.go,
parameterized over the decoder for one child (`step`, the recursive call
one level down) and a fuel bound so that the loop is structural: read 32
reference bytes (running out exactly at a pair boundary ends the node),
read 32 key bytes (running out is an error, as io.ReadFull reports EOF or
ErrUnexpectedEOF there), stop at an all-zero pair, otherwise decode the
child and continue.  Each iteration consumes 64 bytes of `rem` and one
unit of fuel, so with `fuel ≥ rem.length` (as the caller passes) the
fuel-exhausted branch is unreachable. -/
def decodeRKPs (step : List Byte → List Byte → σ → σ × Option String) :
    Nat → List Byte → σ → σ × Option String
  | fuel, rem, st =>
    if rem.length = 0 then (st, none)
    else if rem.length < RefSize then (st, some "unexpected EOF")
    else
      let ref := rem.take RefSize
      let rest := rem.drop RefSize
      if rest.length < KeySize then (st, some "unexpected EOF")
      else
        let key := rest.take KeySize
        let rem' := rest.drop KeySize
        if refKeyPairAllZero ref key then (st, none)
        else
          match step ref key st with
          | (st', some e) => (st', some e)
          | (st', none) =>
              match fuel with
              | 0 => (st', some "loop fuel exhausted")
              | fuel' + 1 => decodeRKPs step fuel' rem' st'

/-- decodeRecur from eris_decode.go: fetch and verify the block, decrypt
it; at level 0 write the plaintext to the writer, otherwise scan it as a
sequence of reference-key pairs, recursing at level − 1 for each. -/
def decodeRecur (C : Crypto) (s : Storage) (W : Writer σ) (size : Nat) :
    Nat → List Byte → List Byte → σ → σ × Option String
  | level, ref, key, st =>
    match checkedGet C s ref size with
    | Except.error e => (st, some e)
    | Except.ok eb =>
        let ub := xorKeyStream C key 0 eb
        match level with
        | 0 => W.write st ub
        | level' + 1 =>
            decodeRKPs (fun r k st' => decodeRecur C s W size level' r k st')
              ub.length ub st

/-- The state of a paddingSink from eris_decode.go: the state of the
underlying writer, the one-block buffer, and the first-write flag. -/
structure SinkState (σ : Type) where
  us : σ
  buf : List Byte
  first : Bool
  deriving DecidableEq

/-- newPaddingSink from eris_decode.go. -/
def newPaddingSink (us : σ) (size : Nat) : SinkState σ :=
  { us := us, buf := List.replicate size 0, first := true }

/-- paddingSink.Write from eris_decode.go.  When a block is already
buffered it is first written to the underlying writer; note that, as in
the source, the error of that underlying write is assigned and then
dropped by the final `return len(p.buf), nil`. -/
def sinkWrite (W : Writer σ) (p : SinkState σ) (b : List Byte) :
    SinkState σ × Option String :=
  let us1 := if p.first then p.us else (W.write p.us p.buf).1
  if p.buf.length ≠ b.length then
    ({ us := us1, buf := p.buf, first := false },
     some "mismatched padding buffer and block size")
  else
    ({ us := us1, buf := b, first := false }, none)

/-- The backward scan of paddingSink.Flush, on the reversed buffer: strip
trailing zeros; the first non-zero byte must be 0x80 and is stripped; the
surviving prefix is returned (re-reversed).  `none` is the fatal
malformed-padding error (either a non-zero non-0x80 byte, or no 0x80 at
all). -/
def unpadRev : List Byte → Option (List Byte)
  | [] => none
  | b :: rest =>
      if b = 0x80 then some rest.reverse
      else if b ≠ 0 then none
      else unpadRev rest

/-- paddingSink.Flush from eris_decode.go: unpad the buffered block and
write the surviving prefix to the underlying writer (no write at all when
the prefix is empty, Go's `idx <= 0` early return). -/
def sinkFlush (W : Writer σ) (p : SinkState σ) : SinkState σ × Option String :=
  match unpadRev p.buf.reverse with
  | none => (p, some "content block padding malformed")
  | some pre =>
      if pre.length = 0 then (p, none)
      else
        let r := W.write p.us pre
        ({ p with us := r.1 }, r.2)

/-- Decode from eris_decode.go: check the block size, wrap the caller's
writer in a padding sink, decode the tree depth-first from the root, then
strip the padding of the final content block.  Returns the final sink
state (which contains the caller's writer state) and an optional error. -/
def Decode (C : Crypto) (s : Storage) (W : Writer σ) (ws : σ) (root : Ref) :
    SinkState σ × Option String :=
  match checkBlockSize root.blockSize with
  | some e => (newPaddingSink ws root.blockSize, some e)
  | none =>
      let sink0 := newPaddingSink ws root.blockSize
      let SW : Writer (SinkState σ) := ⟨fun p b => sinkWrite W p b⟩
      match decodeRecur C s SW root.blockSize root.level root.ref root.key sink0 with
      | (sink1, some e) => (sink1, some e)
      | (sink1, none) => sinkFlush W sink1

/-- The collecting writer: models an io.Writer that records everything
written to it and never fails. -/
def collector : Writer (List Byte) :=
  ⟨fun s b => (s ++ b, none)⟩

/-- The storage oracle that returns, for each emitted reference, the
emitted ciphertext (the first emission carrying that reference). -/
def storeOf (es : List EmitRec) : Storage := fun ref =>
  match es.find? (fun e => e.ref = ref) with
  | some e => Except.ok e.eblock
  | none => Except.error "block not found"

/-- A reference-key pair, as carried inside inner nodes. -/
abbrev RK := List Byte × List Byte

/-- The plaintext of an inner node holding the pairs of `qs` (each paired
with the content blocks its subtree covers): the packed pairs followed by
the all-zero tail. -/
def nodeBuf (size : Nat) (qs : List (RK × List (List Byte))) : List Byte :=
  (qs.map (fun q => q.1.1 ++ q.1.2)).flatten
    ++ List.replicate (size - 64 * qs.length) 0

/-- Correctness of one encoded subtree with respect to an emission list:
the pair `rk` names a block present in `E` whose plaintext is, at level 0,
a single content block (the cover), and at level `l + 1` an inner node of
1 to size/64 non-zero pairs, each a correct subtree at level `l`, covering
the concatenation of the children's covers in order. -/
def goodTree (C : Crypto) (secret : List Byte) (size : Nat) (E : List EmitRec) :
    Nat → RK → List (List Byte) → Prop
  | 0, rk, cover =>
      ∃ P, cover = [P] ∧ P.length = size ∧
        rk = ((marshalBlock C P secret).2.1, (marshalBlock C P secret).2.2) ∧
        ∃ lv, EmitRec.mk lv P (marshalBlock C P secret).1 rk.1 rk.2 ∈ E
  | lvl + 1, rk, cover =>
      ∃ qs : List (RK × List (List Byte)),
        1 ≤ qs.length ∧ 64 * qs.length ≤ size ∧
        cover = (qs.map Prod.snd).flatten ∧
        (∀ q ∈ qs, goodTree C secret size E lvl q.1 q.2 ∧
           refKeyPairAllZero q.1.1 q.1.2 = false) ∧
        rk = ((marshalBlock C (nodeBuf size qs) secret).2.1,
              (marshalBlock C (nodeBuf size qs) secret).2.2) ∧
        ∃ lv, EmitRec.mk lv (nodeBuf size qs)
            (marshalBlock C (nodeBuf size qs) secret).1 rk.1 rk.2 ∈ E

/-- The content blocks covered by one accumulator level, in order. -/
def covers1 (ps : List (RK × List (List Byte))) : List (List Byte) :=
  (ps.map Prod.snd).flatten

/-- The content blocks covered by a whole accumulator chain, in order:
the higher levels hold the earlier content. -/
def chainCovers (pss : List (List (RK × List (List Byte)))) : List (List Byte) :=
  (pss.reverse.map covers1).flatten

/-- The coupling invariant between an accumulator chain and the decoded
meaning of the pairs it buffers: level by level, the buffer holds exactly
the packed pairs (zero-filled tail), and every pair is a correct non-zero
subtree; the head accumulator holds pairs of level `plvl`, its parents
pairs of one level higher each. -/
def chainRel (C : Crypto) (secret : List Byte) (size : Nat) (E : List EmitRec) :
    Nat → List AccState → List (List (RK × List (List Byte))) → Prop
  | _, [], [] => True
  | plvl, a :: as, ps :: pss =>
      a.n = 64 * ps.length ∧ a.n ≤ size ∧
      a.buf = nodeBuf size ps ∧
      (∀ q ∈ ps, goodTree C secret size E plvl q.1 q.2 ∧
         refKeyPairAllZero q.1.1 q.1.2 = false) ∧
      chainRel C secret size E (plvl + 1) as pss
  | _, _, _ => False

/-- Feeding a list of blocks through the padding sink over the underlying
writer `W`, keeping the final sink state. -/
def feedSink (W : Writer σ) (p : SinkState σ) (cs : List (List Byte)) :
    SinkState σ :=
  cs.foldl (fun q c => (sinkWrite W q c).1) p

/-- Well-formedness of one emission record: the emitted ciphertext,
reference and key are exactly the marshalling of its plaintext, and the
plaintext is one block long. -/
def emitOK (C : Crypto) (secret : List Byte) (size : Nat) (e : EmitRec) : Prop :=
  e.ublock.length = size ∧
  e.eblock = (marshalBlock C e.ublock secret).1 ∧
  e.ref = (marshalBlock C e.ublock secret).2.1 ∧
  e.key = (marshalBlock C e.ublock secret).2.2

/-- Shape of an emitted inner node: its plaintext is a non-empty packed
list of 64-byte non-zero reference-key pairs followed by an all-zero
tail. -/
def innerShape (size : Nat) (e : EmitRec) : Prop :=
  ∃ qs : List (RK × List (List Byte)),
    1 ≤ qs.length ∧ 64 * qs.length ≤ size ∧
    e.ublock = nodeBuf size qs ∧
    ∀ q ∈ qs, (q.1.1.length = RefSize ∧ q.1.2.length = KeySize) ∧
      refKeyPairAllZero q.1.1 q.1.2 = false

/-- Slot `i` of an inner-node plaintext: its bytes 64 i up to 64 (i+1). -/
def slotPair (b : List Byte) (i : Nat) : List Byte :=
  (b.drop (64 * i)).take 64

/-- A small concrete instance of the crypto interface, used to evaluate
the theorems below on concrete inputs.  Its reference hash has a non-zero
first byte, so no reference-key pair is ever all-zero. -/
def testC : Crypto where
  refHash b := (b.foldl (· + ·) 0 % 250 + 1) :: List.replicate 31 0
  keyHash b s := ((b.foldl (· + ·) 0 + s.foldl (· + ·) 0) % 250 + 2) :: List.replicate 31 0
  ksByte _ _ := 0
  refHash_len b := by simp [RefSize]
  keyHash_len b s := by simp [KeySize]

/-- A writer that always fails, counting the write attempts made on it.
Models a caller-supplied output writer whose Write returns an error. -/
def failW : Writer Nat :=
  ⟨fun s _ => (s + 1, some "write failed")⟩

/-! Basic lemmas about the primitives. -/

theorem xorKeyStream_length (C : Crypto) (key : List Byte) (i : Nat) (l : List Byte) :
    (xorKeyStream C key i l).length = l.length := by
  induction l generalizing i with
  | nil => rfl
  | cons b rest ih => simp [xorKeyStream, ih]

theorem xorKeyStream_xorKeyStream (C : Crypto) (key : List Byte) (i : Nat) (l : List Byte) :
    xorKeyStream C key i (xorKeyStream C key i l) = l := by
  induction l generalizing i with
  | nil => rfl
  | cons b rest ih =>
    simp only [xorKeyStream, ih, Nat.xor_assoc, Nat.xor_self, Nat.xor_zero]

theorem marshalBlock_eblock_length (C : Crypto) (ublock secret : List Byte) :
    (marshalBlock C ublock secret).1.length = ublock.length := by
  simp [marshalBlock, xorKeyStream_length]

theorem marshalBlock_ref_eq (C : Crypto) (ublock secret : List Byte) :
    (marshalBlock C ublock secret).2.1 = C.refHash (marshalBlock C ublock secret).1 := by
  simp [marshalBlock]

theorem marshalBlock_ref_length (C : Crypto) (ublock secret : List Byte) :
    (marshalBlock C ublock secret).2.1.length = RefSize := by
  simp [marshalBlock, C.refHash_len]

theorem marshalBlock_key_length (C : Crypto) (ublock secret : List Byte) :
    (marshalBlock C ublock secret).2.2.length = KeySize := by
  simp [marshalBlock, C.keyHash_len]

theorem marshalBlock_decrypt (C : Crypto) (ublock secret : List Byte) :
    xorKeyStream C (marshalBlock C ublock secret).2.2 0 (marshalBlock C ublock secret).1
      = ublock := by
  simp [marshalBlock, xorKeyStream_xorKeyStream]

theorem padContentBlock_short (block : List Byte) (size : Nat)
    (h : block.length < size) :
    padContentBlock block size
      = block ++ 0x80 :: List.replicate (size - block.length - 1) 0 := by
  unfold padContentBlock pad
  have hm : block.length % size = block.length := Nat.mod_eq_of_lt h
  rw [hm]
  have h1 : ¬(size - block.length = 0) := by omega
  simp only [if_neg h1]

theorem padContentBlock_length (block : List Byte) (size : Nat)
    (h : block.length < size) :
    (padContentBlock block size).length = size := by
  rw [padContentBlock_short block size h]
  simp only [List.length_append, List.length_cons, List.length_replicate]
  omega


/-- Canonical form of a buffer write: writing at the end of the used
prefix. -/
theorem setBytes_at (J tail d : List Byte) :
    setBytes (J ++ tail) J.length d = J ++ d ++ tail.drop d.length := by
  unfold setBytes
  rw [List.take_left, List.drop_append]

/-- accumulator.add on a canonically shaped buffer appends the pair into
the zero tail. -/
theorem accAdd_canon (size n : Nat) (J ref key : List Byte)
    (hJ : J.length = n) (hr : ref.length = RefSize) (hk : key.length = KeySize) :
    accAdd ⟨J ++ List.replicate (size - n) 0, n⟩ ref key
      = ⟨J ++ ref ++ key ++ List.replicate (size - n - RefSize - KeySize) 0,
         n + RefSize + KeySize⟩ := by
  have h1 : setBytes (J ++ List.replicate (size - n) 0) n ref
      = J ++ ref ++ List.replicate (size - n - RefSize) 0 := by
    rw [← hJ, setBytes_at, List.drop_replicate, hr]
  have hlen : (J ++ ref).length = n + RefSize := by simp [hJ, hr]
  have h2 : setBytes ((J ++ ref) ++ List.replicate (size - n - RefSize) 0)
        (n + RefSize) key
      = J ++ ref ++ key ++ List.replicate (size - n - RefSize - KeySize) 0 := by
    rw [← hlen, setBytes_at, List.drop_replicate, hk]
  simp only [accAdd]
  rw [h1, h2]

/-! Lemmas about the padding sink scan (claim C7 groundwork). -/

theorem unpadRev_of_padded (q : List Byte) (k : Nat) :
    unpadRev (List.replicate k 0 ++ 0x80 :: q) = some q.reverse := by
  induction k with
  | zero => simp [unpadRev]
  | succ m ih =>
    rw [List.replicate_succ, List.cons_append]
    unfold unpadRev
    simp [ih]

theorem unpadRev_some (l pre : List Byte) (h : unpadRev l = some pre) :
    ∃ k, l = List.replicate k 0 ++ 0x80 :: pre.reverse := by
  induction l generalizing pre with
  | nil => simp [unpadRev] at h
  | cons b rest ih =>
    by_cases hb : b = 0x80
    · subst hb
      simp only [unpadRev, reduceIte, Option.some.injEq] at h
      exact ⟨0, by simp [← h]⟩
    · by_cases hz : b = 0
      · subst hz
        simp only [unpadRev, reduceIte] at h
        obtain ⟨k, hk⟩ := ih pre h
        exact ⟨k + 1, by simp [hk, List.replicate_succ]⟩
      · simp [unpadRev, hb, hz] at h

theorem reverse_padded (q : List Byte) (k : Nat) :
    (q ++ 0x80 :: List.replicate k 0).reverse
      = List.replicate k 0 ++ 0x80 :: q.reverse := by
  simp [List.reverse_append, List.reverse_cons, List.reverse_replicate,
    List.append_assoc]

theorem sinkFlush_padded (W : Writer σ) (us : σ) (buf : List Byte) (f : Bool)
    (q : List Byte) (k : Nat) (hq : buf = q ++ 0x80 :: List.replicate k 0) :
    sinkFlush W ⟨us, buf, f⟩
      = if q.length = 0 then (⟨us, buf, f⟩, none)
        else (⟨(W.write us q).1, buf, f⟩, (W.write us q).2) := by
  unfold sinkFlush
  dsimp only
  rw [hq, reverse_padded, unpadRev_of_padded, List.reverse_reverse]

theorem sinkFlush_malformed (W : Writer σ) (us : σ) (buf : List Byte) (f : Bool)
    (hno : ¬ ∃ q k, buf = q ++ 0x80 :: List.replicate k 0) :
    sinkFlush W ⟨us, buf, f⟩
      = (⟨us, buf, f⟩, some "content block padding malformed") := by
  unfold sinkFlush
  dsimp only
  cases hrev : unpadRev buf.reverse with
  | none => rfl
  | some pre =>
    exfalso
    obtain ⟨k, hk⟩ := unpadRev_some _ _ hrev
    apply hno
    refine ⟨pre, k, ?_⟩
    have := congrArg List.reverse hk
    rw [List.reverse_reverse] at this
    rw [this, List.reverse_append, List.reverse_cons, List.reverse_replicate,
      List.reverse_reverse]
    simp [List.append_assoc]

/-- C7: paddingSink.Flush succeeds exactly when the buffered block is a
prefix followed by 0x80 and trailing zeros; on success exactly that
prefix is written to the underlying writer (here the collecting writer),
and on any other trailing pattern it errors and writes nothing. -/
theorem paddingSink_flush_spec (out buf : List Byte) (f : Bool) :
    (∀ q k, buf = q ++ 0x80 :: List.replicate k 0 →
        sinkFlush collector ⟨out, buf, f⟩ = (⟨out ++ q, buf, f⟩, none)) ∧
    ((¬ ∃ q k, buf = q ++ 0x80 :: List.replicate k 0) →
        sinkFlush collector ⟨out, buf, f⟩
          = (⟨out, buf, f⟩, some "content block padding malformed")) := by
  constructor
  · intro q k hq
    rw [sinkFlush_padded collector out buf f q k hq]
    by_cases hq0 : q.length = 0
    · have : q = [] := List.eq_nil_of_length_eq_zero hq0
      subst this
      simp
    · simp only [if_neg hq0, collector]
  · exact sinkFlush_malformed collector out buf f

/-- Witness for C7 at a concrete buffer. -/
theorem paddingSink_flush_spec_witness :
    sinkFlush collector ⟨[5, 6], [7, 0x80, 0], true⟩
      = (⟨[5, 6] ++ [7], [7, 0x80, 0], true⟩, none) :=
  (paddingSink_flush_spec [5, 6] [7, 0x80, 0] true).1 [7] 1 (by decide)

theorem flush_single_collapse (C : Crypto) (secret : List Byte)
    (size fuel level : Nat) (a : AccState) (hf : 0 < fuel)
    (h : a.n = RefSize + KeySize) :
    flush C secret size fuel level [a]
      = some ([], ⟨size, level - 1, a.buf.take RefSize,
                   (a.buf.drop RefSize).take KeySize⟩) := by
  cases fuel with
  | zero => exact absurd hf (by simp)
  | succ m => simp [flush, h]

theorem flush_single_emit (C : Crypto) (secret : List Byte)
    (size fuel level : Nat) (a : AccState) (hf : 0 < fuel)
    (h : a.n ≠ RefSize + KeySize) :
    flush C secret size fuel level [a]
      = some ([⟨level, a.buf, (marshalBlock C a.buf secret).1,
                (marshalBlock C a.buf secret).2.1,
                (marshalBlock C a.buf secret).2.2⟩],
              ⟨size, level, (marshalBlock C a.buf secret).2.1,
               (marshalBlock C a.buf secret).2.2⟩) := by
  cases fuel with
  | zero => exact absurd hf (by simp)
  | succ m => simp [flush, h]

/-- C5: flushing the parentless accumulator returns the single buffered
reference-key pair directly as the root capability at level − 1 when the
cursor is exactly one pair (emitting nothing), and otherwise emits the
buffer as a block whose reference-key pair is the root capability at this
level. -/
theorem flush_root_spec (C : Crypto) (secret : List Byte) (size fuel level : Nat)
    (a : AccState) (hf : 0 < fuel) :
    (a.n = RefSize + KeySize →
      flush C secret size fuel level [a]
        = some ([], ⟨size, level - 1, a.buf.take RefSize,
                     (a.buf.drop RefSize).take KeySize⟩)) ∧
    (a.n ≠ RefSize + KeySize →
      flush C secret size fuel level [a]
        = some ([⟨level, a.buf, (marshalBlock C a.buf secret).1,
                  (marshalBlock C a.buf secret).2.1,
                  (marshalBlock C a.buf secret).2.2⟩],
                ⟨size, level, (marshalBlock C a.buf secret).2.1,
                 (marshalBlock C a.buf secret).2.2⟩)) :=
  ⟨flush_single_collapse C secret size fuel level a hf,
   flush_single_emit C secret size fuel level a hf⟩

/-- Witness for C5: the collapse branch at a concrete accumulator state. -/
theorem flush_root_spec_witness :
    flush testC [] 1024 1 3 [⟨[1, 2], 64⟩]
      = some ([], ⟨1024, 2, List.take RefSize [1, 2],
                   List.take KeySize (List.drop RefSize [1, 2])⟩) :=
  (flush_root_spec testC [] 1024 1 3 ⟨[1, 2], 64⟩ (by decide)).1 (by decide)

theorem refSize_keySize : RefSize + KeySize = 64 := rfl

/-- accumulator.add into a fresh accumulator. -/
theorem accAdd_new (size : Nat) (ref key : List Byte)
    (hr : ref.length = RefSize) (hk : key.length = KeySize) :
    accAdd (accNew size) ref key
      = ⟨ref ++ key ++ List.replicate (size - RefSize - KeySize) 0,
         RefSize + KeySize⟩ := by
  have h := accAdd_canon size 0 [] ref key rfl hr hk
  simpa [accNew] using h

theorem splitBlocks_nil (size : Nat) (_hpos : 0 < size) :
    splitBlocks size [] = [padContentBlock [] size] := rfl

/-- C8: encoding the empty input emits exactly one block: a content
block whose plaintext is 0x80 followed by size − 1 zeros; no inner node
is emitted and the root capability has level 0 (and carries that block's
reference-key pair). -/
theorem encode_empty (C : Crypto) (secret : List Byte) (size : Nat)
    (hdvd : size % (RefSize + KeySize) = 0) (hpos : 0 < size) :
    encode C secret size []
      = some ([⟨0, 0x80 :: List.replicate (size - 1) 0,
               (marshalBlock C (0x80 :: List.replicate (size - 1) 0) secret).1,
               (marshalBlock C (0x80 :: List.replicate (size - 1) 0) secret).2.1,
               (marshalBlock C (0x80 :: List.replicate (size - 1) 0) secret).2.2⟩],
              ⟨size, 0,
               (marshalBlock C (0x80 :: List.replicate (size - 1) 0) secret).2.1,
               (marshalBlock C (0x80 :: List.replicate (size - 1) 0) secret).2.2⟩) := by
  have hsz : RefSize + KeySize ≤ size :=
    Nat.le_of_dvd hpos (Nat.dvd_of_mod_eq_zero hdvd)
  rw [refSize_keySize] at hsz
  have hpad : padContentBlock [] size = 0x80 :: List.replicate (size - 1) 0 := by
    rw [padContentBlock_short [] size (by simpa using hpos)]
    simp
  have hsplit : splitBlocks size [] = [0x80 :: List.replicate (size - 1) 0] := by
    rw [splitBlocks_nil size hpos, hpad]
  have hr := marshalBlock_ref_length C (0x80 :: List.replicate (size - 1) 0) secret
  have hk := marshalBlock_key_length C (0x80 :: List.replicate (size - 1) 0) secret
  have hsteps : encodeSteps C secret size ([accNew size], [])
        [0x80 :: List.replicate (size - 1) 0]
      = ([accAdd (accNew size)
            (marshalBlock C (0x80 :: List.replicate (size - 1) 0) secret).2.1
            (marshalBlock C (0x80 :: List.replicate (size - 1) 0) secret).2.2],
         [⟨0, 0x80 :: List.replicate (size - 1) 0,
           (marshalBlock C (0x80 :: List.replicate (size - 1) 0) secret).1,
           (marshalBlock C (0x80 :: List.replicate (size - 1) 0) secret).2.1,
           (marshalBlock C (0x80 :: List.replicate (size - 1) 0) secret).2.2⟩]) := by
    simp only [encodeSteps, marshalAccumulate, recurAccumulate, accNew]
    rw [if_neg (by omega)]
    simp
  rw [accAdd_new size _ _ hr hk] at hsteps
  unfold encode
  rw [if_neg (by simp [hdvd]), hsplit, hsteps]
  have hflush := flush_single_collapse C secret size
      ((1 : Nat) * (size / 64 + 1) + 1) 1
      ⟨(marshalBlock C (0x80 :: List.replicate (size - 1) 0) secret).2.1 ++
       (marshalBlock C (0x80 :: List.replicate (size - 1) 0) secret).2.2 ++
       List.replicate (size - RefSize - KeySize) 0,
       RefSize + KeySize⟩ (by omega) rfl
  simp only [List.length_singleton] at hflush ⊢
  rw [hflush]
  have htake : ((marshalBlock C (0x80 :: List.replicate (size - 1) 0) secret).2.1 ++
       (marshalBlock C (0x80 :: List.replicate (size - 1) 0) secret).2.2 ++
       List.replicate (size - RefSize - KeySize) 0).take RefSize
      = (marshalBlock C (0x80 :: List.replicate (size - 1) 0) secret).2.1 := by
    rw [List.append_assoc, ← hr, List.take_left]
  have hdrop : (((marshalBlock C (0x80 :: List.replicate (size - 1) 0) secret).2.1 ++
       (marshalBlock C (0x80 :: List.replicate (size - 1) 0) secret).2.2 ++
       List.replicate (size - RefSize - KeySize) 0).drop RefSize).take KeySize
      = (marshalBlock C (0x80 :: List.replicate (size - 1) 0) secret).2.2 := by
    rw [List.append_assoc, ← hr, List.drop_left, ← hk, List.take_left]
  rw [htake, hdrop]
  simp

set_option maxRecDepth 4000 in
/-- Witness for C8 at block size 1024 with the concrete crypto. -/
theorem encode_empty_witness :
    encode testC [] 1024 []
      = some ([⟨0, 0x80 :: List.replicate (1024 - 1) 0,
               (marshalBlock testC (0x80 :: List.replicate (1024 - 1) 0) []).1,
               (marshalBlock testC (0x80 :: List.replicate (1024 - 1) 0) []).2.1,
               (marshalBlock testC (0x80 :: List.replicate (1024 - 1) 0) []).2.2⟩],
              ⟨1024, 0,
               (marshalBlock testC (0x80 :: List.replicate (1024 - 1) 0) []).2.1,
               (marshalBlock testC (0x80 :: List.replicate (1024 - 1) 0) []).2.2⟩) :=
  encode_empty testC [] 1024 (by decide) (by decide)

theorem checkedGet_bad (C : Crypto) (s : Storage) (ref : List Byte)
    (size : Nat) (b : List Byte) (hb : s ref = Except.ok b)
    (hbad : b.length ≠ size ∨ C.refHash b ≠ ref) :
    ∃ e, checkedGet C s ref size = Except.error e := by
  unfold checkedGet
  simp only [hb]
  by_cases hlen : size = b.length
  · have hh : C.refHash b ≠ ref := by
      rcases hbad with h | h
      · omega
      · exact h
    exact ⟨"error fetching reference from Storage: returned block did not match reference",
      by rw [if_neg (by omega), if_pos hh]⟩
  · exact ⟨"error fetching reference from Storage: returned block incorrect size",
      by rw [if_pos hlen]⟩

theorem decodeRecur_bad (C : Crypto) (s : Storage) {τ : Type} (W : Writer τ)
    (size level : Nat) (ref key : List Byte) (st : τ) (b : List Byte)
    (hb : s ref = Except.ok b)
    (hbad : b.length ≠ size ∨ C.refHash b ≠ ref) :
    ∃ e, decodeRecur C s W size level ref key st = (st, some e) := by
  obtain ⟨e, he⟩ := checkedGet_bad C s ref size b hb hbad
  refine ⟨e, ?_⟩
  cases level with
  | zero => simp [decodeRecur, he]
  | succ l => simp [decodeRecur, he]

/-- C4: when the storage oracle returns, for a requested reference, a
byte string of the wrong length or with the wrong hash, the decoder
errors out at that node leaving the writer state untouched (first
conjunct, the recursive position inside decodeRecur), and Decode as a
whole returns an error having written nothing through the padding sink
(second conjunct, the root fetch). -/
theorem decode_storage_integrity (C : Crypto) (s : Storage) (W : Writer σ)
    (size level : Nat) (ref key : List Byte) (st : σ) (b : List Byte)
    (ws : σ) (root : Ref)
    (hb : s ref = Except.ok b)
    (hbad : b.length ≠ size ∨ C.refHash b ≠ ref) :
    (∃ e, decodeRecur C s W size level ref key st = (st, some e)) ∧
    (root.blockSize = 1024 ∨ root.blockSize = 32 * 1024 →
     root.ref = ref → root.blockSize = size →
     ∃ e, Decode C s W ws root = (newPaddingSink ws root.blockSize, some e)) := by
  constructor
  · exact decodeRecur_bad C s W size level ref key st b hb hbad
  · intro hbs href hsz
    subst href
    subst hsz
    obtain ⟨e, he⟩ := decodeRecur_bad C s
      (⟨fun p c => sinkWrite W p c⟩ : Writer (SinkState σ))
      root.blockSize root.level root.ref root.key
      (newPaddingSink ws root.blockSize) b hb hbad
    refine ⟨e, ?_⟩
    unfold Decode
    have hcbs : checkBlockSize root.blockSize = none := by
      rcases hbs with h | h <;> simp [checkBlockSize, h]
    rw [hcbs]
    dsimp only
    rw [he]

/-- Witness for C4: a storage oracle returning a three-byte block for a
1 KiB request. -/
theorem decode_storage_integrity_witness :
    (∃ e, decodeRecur testC (fun _ => Except.ok [1, 2, 3]) collector 1024 0
        [9] [8] [] = (([] : List Byte), some e)) ∧
    ((1024 : Nat) = 1024 ∨ (1024 : Nat) = 32 * 1024 →
     ([9] : List Byte) = [9] → (1024 : Nat) = 1024 →
     ∃ e, Decode testC (fun _ => Except.ok [1, 2, 3]) collector [] ⟨1024, 0, [9], [8]⟩
        = (newPaddingSink [] 1024, some e)) :=
  decode_storage_integrity testC (fun _ => Except.ok [1, 2, 3]) collector
    1024 0 [9] [8] [] [1, 2, 3] [] ⟨1024, 0, [9], [8]⟩ rfl (Or.inl (by decide))

/-- C9 (refuted by the code): paddingSink.Write assigns the underlying
writer's result to the named returns and then unconditionally returns
`(len(p.buf), nil)`, so a write error from the caller's writer is
silently discarded.  Concretely: with one block already buffered, writing
the next block calls the always-failing writer (first conjunct: that very
call errors, and the counter records the attempt), yet paddingSink.Write
reports success (second conjunct), and the final Flush of a pure-padding
block also reports success without writing (third conjunct) — so the
write failure is never surfaced. -/
theorem paddingSink_write_discards_error :
    (failW.write 0 [5]).2 = some "write failed" ∧
    sinkWrite failW ⟨0, [5], false⟩ [0x80] = (⟨1, [0x80], false⟩, none) ∧
    sinkFlush failW ⟨1, [0x80], false⟩ = (⟨1, [0x80], false⟩, none) := by
  refine ⟨rfl, ?_, ?_⟩
  · rfl
  · rfl

/-! Lemmas about goodTree, nodeBuf and chainRel: the coupling between the
accumulator chain and the tree the decoder will traverse. -/

theorem goodTree_rk_lengths (C : Crypto) (secret : List Byte) (size : Nat)
    (E : List EmitRec) (lvl : Nat) (rk : RK) (cover : List (List Byte))
    (h : goodTree C secret size E lvl rk cover) :
    rk.1.length = RefSize ∧ rk.2.length = KeySize := by
  cases lvl with
  | zero =>
    obtain ⟨P, _, _, hrk, _⟩ := h
    rw [hrk]
    exact ⟨marshalBlock_ref_length C P secret, marshalBlock_key_length C P secret⟩
  | succ l =>
    obtain ⟨qs, _, _, _, _, hrk, _⟩ := h
    rw [hrk]
    exact ⟨marshalBlock_ref_length C _ secret, marshalBlock_key_length C _ secret⟩

theorem goodTree_mono (C : Crypto) (secret : List Byte) (size : Nat)
    (E E' : List EmitRec) (hsub : ∀ e ∈ E, e ∈ E') :
    ∀ (lvl : Nat) (rk : RK) (cover : List (List Byte)),
      goodTree C secret size E lvl rk cover →
      goodTree C secret size E' lvl rk cover := by
  intro lvl
  induction lvl with
  | zero =>
    intro rk cover h
    obtain ⟨P, h1, h2, h3, lv, h4⟩ := h
    exact ⟨P, h1, h2, h3, lv, hsub _ h4⟩
  | succ l ih =>
    intro rk cover h
    obtain ⟨qs, h1, h2, h3, h4, h5, lv, h6⟩ := h
    exact ⟨qs, h1, h2, h3,
      fun q hq => ⟨ih q.1 q.2 (h4 q hq).1, (h4 q hq).2⟩, h5, lv, hsub _ h6⟩

theorem goodTree_cover_lengths (C : Crypto) (secret : List Byte) (size : Nat)
    (E : List EmitRec) :
    ∀ (lvl : Nat) (rk : RK) (cover : List (List Byte)),
      goodTree C secret size E lvl rk cover →
      ∀ c ∈ cover, c.length = size := by
  intro lvl
  induction lvl with
  | zero =>
    intro rk cover h c hc
    obtain ⟨P, h1, h2, _, _⟩ := h
    rw [h1] at hc
    simp at hc
    rw [hc]
    exact h2
  | succ l ih =>
    intro rk cover h c hc
    obtain ⟨qs, _, _, h3, h4, _, _⟩ := h
    rw [h3] at hc
    rw [List.mem_flatten] at hc
    obtain ⟨cs, hcs, hcc⟩ := hc
    rw [List.mem_map] at hcs
    obtain ⟨q, hq, hqeq⟩ := hcs
    exact ih q.1 q.2 (h4 q hq).1 c (hqeq ▸ hcc)

theorem pairs_flatten_length (qs : List (RK × List (List Byte)))
    (hlen : ∀ q ∈ qs, q.1.1.length = RefSize ∧ q.1.2.length = KeySize) :
    ((qs.map (fun q => q.1.1 ++ q.1.2)).flatten).length = 64 * qs.length := by
  induction qs with
  | nil => simp
  | cons q rest ih =>
    simp only [List.map_cons, List.flatten_cons, List.length_append]
    rw [ih (fun p hp => hlen p (List.mem_cons_of_mem q hp))]
    have h1 := (hlen q (List.mem_cons_self q rest)).1
    have h2 := (hlen q (List.mem_cons_self q rest)).2
    simp only [List.length_append, h1, h2, RefSize, KeySize, List.length_cons]
    ring

theorem nodeBuf_length (size : Nat) (qs : List (RK × List (List Byte)))
    (hlen : ∀ q ∈ qs, q.1.1.length = RefSize ∧ q.1.2.length = KeySize)
    (harity : 64 * qs.length ≤ size) :
    (nodeBuf size qs).length = size := by
  unfold nodeBuf
  rw [List.length_append, pairs_flatten_length qs hlen, List.length_replicate]
  omega

theorem nodeBuf_nil (size : Nat) : nodeBuf size [] = List.replicate size 0 := by
  simp [nodeBuf]

/-- accumulator.add on a buffer in nodeBuf form appends one more pair. -/
theorem accAdd_nodeBuf (size : Nat) (qs : List (RK × List (List Byte)))
    (rk : RK) (cover : List (List Byte))
    (hlen : ∀ q ∈ qs, q.1.1.length = RefSize ∧ q.1.2.length = KeySize)
    (hr : rk.1.length = RefSize) (hk : rk.2.length = KeySize)
    (harity : 64 * (qs.length + 1) ≤ size) :
    accAdd ⟨nodeBuf size qs, 64 * qs.length⟩ rk.1 rk.2
      = ⟨nodeBuf size (qs ++ [(rk, cover)]), 64 * (qs.length + 1)⟩ := by
  have hJ := pairs_flatten_length qs hlen
  have h := accAdd_canon size (64 * qs.length)
      ((qs.map (fun q => q.1.1 ++ q.1.2)).flatten) rk.1 rk.2 hJ hr hk
  unfold nodeBuf
  rw [h]
  have harith : size - 64 * qs.length - RefSize - KeySize
      = size - 64 * (qs.length + 1) := by
    simp only [RefSize, KeySize]
    omega
  have hn : 64 * qs.length + RefSize + KeySize = 64 * (qs.length + 1) := by
    simp only [RefSize, KeySize]
    omega
  rw [harith, hn]
  congr 1
  rw [List.map_append, List.flatten_append]
  simp [List.append_assoc]

theorem covers1_append_one (ps : List (RK × List (List Byte)))
    (q : RK × List (List Byte)) :
    covers1 (ps ++ [q]) = covers1 ps ++ q.2 := by
  simp [covers1]

theorem chainCovers_cons (x : List (RK × List (List Byte)))
    (xs : List (List (RK × List (List Byte)))) :
    chainCovers (x :: xs) = chainCovers xs ++ covers1 x := by
  unfold chainCovers
  rw [List.reverse_cons, List.map_append, List.flatten_append]
  simp

theorem chainRel_mono (C : Crypto) (secret : List Byte) (size : Nat)
    (E E' : List EmitRec) (hsub : ∀ e ∈ E, e ∈ E') :
    ∀ (plvl : Nat) (chain : List AccState)
      (pss : List (List (RK × List (List Byte)))),
      chainRel C secret size E plvl chain pss →
      chainRel C secret size E' plvl chain pss := by
  intro plvl chain
  induction chain generalizing plvl with
  | nil =>
    intro pss h
    cases pss with
    | nil => trivial
    | cons p ps => simp [chainRel] at h
  | cons a rest ih =>
    intro pss h
    cases pss with
    | nil => simp [chainRel] at h
    | cons ps pssT =>
      obtain ⟨h1, h2, h3, h4, h5⟩ := h
      exact ⟨h1, h2, h3,
        fun q hq => ⟨goodTree_mono C secret size E E' hsub plvl q.1 q.2
          (h4 q hq).1, (h4 q hq).2⟩,
        ih (plvl + 1) pssT h5⟩

/-- Pairs stored under chainRel have the fixed reference and key widths. -/
theorem chainRel_pair_lengths (C : Crypto) (secret : List Byte) (size : Nat)
    (E : List EmitRec) (plvl : Nat) (ps : List (RK × List (List Byte)))
    (h4 : ∀ q ∈ ps, goodTree C secret size E plvl q.1 q.2 ∧
        refKeyPairAllZero q.1.1 q.1.2 = false) :
    ∀ q ∈ ps, q.1.1.length = RefSize ∧ q.1.2.length = KeySize :=
  fun q hq => goodTree_rk_lengths C secret size E plvl q.1 q.2 (h4 q hq).1

/-- The central preservation lemma: pushing a correct non-zero subtree's
reference-key pair through RecurAccumulate preserves the chain coupling
(against the extended emission list), extends the covered content by the
subtree's cover, keeps every level non-empty, and only emits well-formed
inner-node blocks. -/
theorem recurAccumulate_rel (C : Crypto) (secret : List Byte) (size : Nat)
    (hdvd : 64 ∣ size) (h128 : 128 ≤ size)
    (HZ : ∀ ub, refKeyPairAllZero (marshalBlock C ub secret).2.1
        (marshalBlock C ub secret).2.2 = false) :
    ∀ (chain : List AccState) (pss : List (List (RK × List (List Byte))))
      (E : List EmitRec) (plvl level : Nat) (rk : RK) (cover : List (List Byte)),
      chainRel C secret size E plvl chain pss →
      goodTree C secret size E plvl rk cover →
      refKeyPairAllZero rk.1 rk.2 = false →
      (∀ ps ∈ pss.drop 1, 1 ≤ ps.length) →
      1 ≤ level →
      ∃ pss',
        chainRel C secret size
          (E ++ (recurAccumulate C secret size level chain rk.1 rk.2).2) plvl
          (recurAccumulate C secret size level chain rk.1 rk.2).1 pss' ∧
        chainCovers pss' = chainCovers pss ++ cover ∧
        (∀ ps ∈ pss', 1 ≤ ps.length) ∧
        (∀ e ∈ (recurAccumulate C secret size level chain rk.1 rk.2).2,
           emitOK C secret size e ∧ innerShape size e ∧ 1 ≤ e.level) := by
  intro chain
  induction chain with
  | nil =>
    intro pss E plvl level rk cover hrel hgood hnz hne hlev
    cases pss with
    | cons p ps => simp [chainRel] at hrel
    | nil =>
      refine ⟨[[(rk, cover)]], ?_, ?_, ?_, ?_⟩
      · have hr := (goodTree_rk_lengths C secret size E plvl rk cover hgood).1
        have hk := (goodTree_rk_lengths C secret size E plvl rk cover hgood).2
        have hacc : accAdd (accNew size) rk.1 rk.2
            = ⟨nodeBuf size [(rk, cover)], 64 * 1⟩ := by
          have := accAdd_nodeBuf size [] rk cover (by simp) hr hk
            (by simp; omega)
          rw [nodeBuf_nil] at this
          simpa [accNew] using this
        simp only [recurAccumulate, hacc]
        refine ⟨by simp, by simp; omega, rfl, ?_, trivial⟩
        intro q hq
        simp at hq
        subst hq
        exact ⟨goodTree_mono C secret size E _ (fun x hx => List.mem_append_left _ hx) plvl rk cover hgood, hnz⟩
      · simp [chainCovers, covers1]
      · intro ps hps
        simp at hps
        subst hps
        simp
      · intro e he
        simp [recurAccumulate] at he
  | cons a rest ih =>
    intro pss E plvl level rk cover hrel hgood hnz hne hlev
    obtain ⟨abuf, an⟩ := a
    cases pss with
    | nil => simp [chainRel] at hrel
    | cons ps pssT =>
      obtain ⟨hn, hnsz, hbuf, hps, hrelT⟩ := hrel
      dsimp only at hn hnsz hbuf
      subst hn
      subst hbuf
      have hplen := chainRel_pair_lengths C secret size E plvl ps hps
      have hrkl := goodTree_rk_lengths C secret size E plvl rk cover hgood
      by_cases hfull : 64 * ps.length = size
      · -- the buffer is full: emit it and push its pair into the parents
        have hM : 2 ≤ ps.length := by omega
        have hbuflen : (nodeBuf size ps).length = size :=
          nodeBuf_length size ps hplen (by omega)
        -- the emitted node is a good subtree one level up
        have hgn : goodTree C secret size
            (E ++ [⟨level, nodeBuf size ps,
                    (marshalBlock C (nodeBuf size ps) secret).1,
                    (marshalBlock C (nodeBuf size ps) secret).2.1,
                    (marshalBlock C (nodeBuf size ps) secret).2.2⟩]) (plvl + 1)
            ((marshalBlock C (nodeBuf size ps) secret).2.1,
             (marshalBlock C (nodeBuf size ps) secret).2.2) (covers1 ps) := by
          refine ⟨ps, by omega, by omega, rfl, ?_, rfl, ?_⟩
          · intro q hq
            exact ⟨goodTree_mono C secret size E _
              (fun x hx => List.mem_append_left _ hx) plvl q.1 q.2
              (hps q hq).1, (hps q hq).2⟩
          · exact ⟨level, by simp⟩
        have hrelT' := chainRel_mono C secret size E
          (E ++ [⟨level, nodeBuf size ps,
                  (marshalBlock C (nodeBuf size ps) secret).1,
                  (marshalBlock C (nodeBuf size ps) secret).2.1,
                  (marshalBlock C (nodeBuf size ps) secret).2.2⟩])
          (fun x hx => List.mem_append_left _ hx) (plvl + 1) rest pssT hrelT
        obtain ⟨pss2, hrel2, hcov2, hne2, hemit2⟩ :=
          ih pssT
            (E ++ [⟨level, nodeBuf size ps,
                    (marshalBlock C (nodeBuf size ps) secret).1,
                    (marshalBlock C (nodeBuf size ps) secret).2.1,
                    (marshalBlock C (nodeBuf size ps) secret).2.2⟩])
            (plvl + 1) (level + 1)
            ((marshalBlock C (nodeBuf size ps) secret).2.1,
             (marshalBlock C (nodeBuf size ps) secret).2.2)
            (covers1 ps) hrelT' hgn (HZ _)
            (fun p hp => hne p (List.mem_of_mem_drop hp)) (by omega)
        have hstep : recurAccumulate C secret size level
              (⟨nodeBuf size ps, 64 * ps.length⟩ :: rest) rk.1 rk.2
            = (accAdd (accReset ⟨nodeBuf size ps, 64 * ps.length⟩) rk.1 rk.2
                 :: (recurAccumulate C secret size (level + 1) rest
                      (marshalBlock C (nodeBuf size ps) secret).2.1
                      (marshalBlock C (nodeBuf size ps) secret).2.2).1,
               ⟨level, nodeBuf size ps,
                (marshalBlock C (nodeBuf size ps) secret).1,
                (marshalBlock C (nodeBuf size ps) secret).2.1,
                (marshalBlock C (nodeBuf size ps) secret).2.2⟩
                 :: (recurAccumulate C secret size (level + 1) rest
                      (marshalBlock C (nodeBuf size ps) secret).2.1
                      (marshalBlock C (nodeBuf size ps) secret).2.2).2) := by
          simp only [recurAccumulate, if_pos hfull]
        have haccr : accAdd (accReset ⟨nodeBuf size ps, 64 * ps.length⟩) rk.1 rk.2
            = ⟨nodeBuf size [(rk, cover)], 64 * 1⟩ := by
          have h0 := accAdd_nodeBuf size [] rk cover (by simp) hrkl.1 hrkl.2
            (by simp; omega)
          rw [nodeBuf_nil] at h0
          have hres : accReset ⟨nodeBuf size ps, 64 * ps.length⟩ = accNew size := by
            simp [accReset, accNew, hbuflen]
          rw [hres]
          simpa [accNew] using h0
        refine ⟨[(rk, cover)] :: pss2, ?_, ?_, ?_, ?_⟩
        · rw [hstep, haccr]
          have hEeq : ∀ (x : EmitRec) (l2 : List EmitRec),
              E ++ (x :: l2) = (E ++ [x]) ++ l2 := by simp
          rw [hEeq]
          refine ⟨by simp, by simp; omega, rfl, ?_, hrel2⟩
          intro q hq
          simp only [List.mem_singleton] at hq
          subst hq
          exact ⟨goodTree_mono C secret size E _
            (fun x hx => List.mem_append_left _ (List.mem_append_left _ hx))
            plvl rk cover hgood, hnz⟩
        · rw [chainCovers_cons, chainCovers_cons, hcov2]
          simp [covers1, List.append_assoc]
        · intro p hp
          simp only [List.mem_cons] at hp
          rcases hp with hp | hp
          · subst hp; simp
          · exact hne2 p hp
        · rw [hstep]
          intro e he
          simp only [List.mem_cons] at he
          rcases he with he | he
          · subst he
            refine ⟨⟨hbuflen, rfl, rfl, rfl⟩,
              ⟨ps, by omega, by omega, rfl, ?_⟩, hlev⟩
            intro q hq
            exact ⟨hplen q hq, (hps q hq).2⟩
          · exact hemit2 e he
      · -- room left: append the pair into this buffer
        have hlt : 64 * ps.length < size := by omega
        have harj : 64 * (ps.length + 1) ≤ size := by
          obtain ⟨k, hk⟩ := hdvd
          omega
        have hstep : recurAccumulate C secret size level
              (⟨nodeBuf size ps, 64 * ps.length⟩ :: rest) rk.1 rk.2
            = (accAdd ⟨nodeBuf size ps, 64 * ps.length⟩ rk.1 rk.2 :: rest, []) := by
          simp only [recurAccumulate, if_neg hfull]
        have hacc : accAdd ⟨nodeBuf size ps, 64 * ps.length⟩ rk.1 rk.2
            = ⟨nodeBuf size (ps ++ [(rk, cover)]), 64 * (ps.length + 1)⟩ :=
          accAdd_nodeBuf size ps rk cover hplen hrkl.1 hrkl.2 harj
        refine ⟨(ps ++ [(rk, cover)]) :: pssT, ?_, ?_, ?_, ?_⟩
        · rw [hstep, hacc]
          simp only [List.append_nil]
          refine ⟨by simp, harj, rfl, ?_, hrelT⟩
          intro q hq
          rw [List.mem_append] at hq
          rcases hq with hq | hq
          · exact hps q hq
          · simp only [List.mem_singleton] at hq
            subst hq
            exact ⟨hgood, hnz⟩
        · rw [chainCovers_cons, chainCovers_cons, covers1_append_one]
          simp [List.append_assoc]
        · intro p hp
          simp only [List.mem_cons] at hp
          rcases hp with hp | hp
          · subst hp
            simp
          · exact hne p hp
        · rw [hstep]
          intro e he
          simp at he

/-- Flushing a chain that satisfies the coupling invariant produces a
root capability whose subtree covers exactly the chain's content, only
emitting well-formed inner-node blocks. -/
theorem flush_rel (C : Crypto) (secret : List Byte) (size : Nat)
    (hdvd : 64 ∣ size) (h128 : 128 ≤ size)
    (HZ : ∀ ub, refKeyPairAllZero (marshalBlock C ub secret).2.1
        (marshalBlock C ub secret).2.2 = false) :
    ∀ (fuel : Nat) (chain : List AccState)
      (pss : List (List (RK × List (List Byte)))) (E : List EmitRec)
      (plvl : Nat) (es2 : List EmitRec) (root : Ref),
      chainRel C secret size E plvl chain pss →
      (∀ ps ∈ pss, 1 ≤ ps.length) →
      flush C secret size fuel (plvl + 1) chain = some (es2, root) →
      goodTree C secret size (E ++ es2) root.level (root.ref, root.key)
          (chainCovers pss) ∧
      root.blockSize = size ∧
      (∀ e ∈ es2, emitOK C secret size e ∧ innerShape size e ∧ 1 ≤ e.level) := by
  intro fuel
  induction fuel with
  | zero =>
    intro chain pss E plvl es2 root _ _ hres
    simp [flush] at hres
  | succ fuel ih =>
    intro chain pss E plvl es2 root hrel hpsne hres
    match chain, pss with
    | [], [] => simp [flush] at hres
    | [], p :: ps => simp [chainRel] at hrel
    | [a], pss =>
      cases pss with
      | nil => simp [chainRel] at hrel
      | cons ps pssT =>
        cases pssT with
        | cons ps2 pssT2 =>
          obtain ⟨-, -, -, -, hbad⟩ := hrel
          simp [chainRel] at hbad
        | nil =>
          obtain ⟨abuf, an⟩ := a
          obtain ⟨hn, hnsz, hbuf, hps, -⟩ := hrel
          dsimp only at hn hnsz hbuf
          subst hn
          subst hbuf
          have hplen := chainRel_pair_lengths C secret size E plvl ps hps
          have hone := hpsne ps (by simp)
          by_cases hcoll : 64 * ps.length = RefSize + KeySize
          · -- collapse: the single buffered pair is the root
            have hlen1 : ps.length = 1 := by
              simp only [RefSize, KeySize] at hcoll
              omega
            obtain ⟨q, hq⟩ := List.length_eq_one.mp hlen1
            subst hq
            rw [flush_single_collapse C secret size (fuel + 1) (plvl + 1)
              ⟨nodeBuf size [q], 64 * [q].length⟩ (by omega)
              (by simpa using hcoll)] at hres
            simp only [Option.some.injEq, Prod.mk.injEq] at hres
            obtain ⟨h1, h2⟩ := hres
            subst h1
            subst h2
            have hq1 := (hplen q (by simp)).1
            have hq2 := (hplen q (by simp)).2
            have htk : (nodeBuf size [q]).take RefSize = q.1.1 := by
              unfold nodeBuf
              simp only [List.map_cons, List.map_nil, List.flatten_cons,
                List.flatten_nil, List.append_nil]
              rw [List.append_assoc, ← hq1, List.take_left]
            have hdk : ((nodeBuf size [q]).drop RefSize).take KeySize = q.1.2 := by
              unfold nodeBuf
              simp only [List.map_cons, List.map_nil, List.flatten_cons,
                List.flatten_nil, List.append_nil]
              rw [List.append_assoc, ← hq1, List.drop_left, ← hq2,
                List.take_left]
            refine ⟨?_, rfl, by simp⟩
            dsimp only
            rw [htk, hdk]
            have hcc : chainCovers [[q]] = q.2 := by
              simp [chainCovers, covers1]
            rw [hcc]
            have hgq := (hps q (by simp)).1
            rw [List.append_nil]
            exact hgq
          · -- the top buffer becomes the root block at this level
            rw [flush_single_emit C secret size (fuel + 1) (plvl + 1)
              ⟨nodeBuf size ps, 64 * ps.length⟩ (by omega)
              (by simpa using hcoll)] at hres
            simp only [Option.some.injEq, Prod.mk.injEq] at hres
            obtain ⟨h1, h2⟩ := hres
            subst h1
            subst h2
            have hle : 64 * ps.length ≤ size := hnsz
            have hbuflen : (nodeBuf size ps).length = size :=
              nodeBuf_length size ps hplen hle
            have hcc : chainCovers [ps] = covers1 ps := by
              simp [chainCovers]
            refine ⟨?_, rfl, ?_⟩
            · dsimp only
              rw [hcc]
              refine ⟨ps, hone, hle, rfl, ?_, rfl, ?_⟩
              · intro q hq
                exact ⟨goodTree_mono C secret size E _
                  (fun x hx => List.mem_append_left _ hx) plvl q.1 q.2
                  (hps q hq).1, (hps q hq).2⟩
              · exact ⟨plvl + 1, by simp⟩
            · intro e he
              simp only [List.mem_singleton] at he
              subst he
              refine ⟨⟨hbuflen, rfl, rfl, rfl⟩,
                ⟨ps, hone, hle, rfl, ?_⟩, by simp⟩
              intro q hq
              exact ⟨hplen q hq, (hps q hq).2⟩
    | a :: b :: rest, pss =>
      cases pss with
      | nil => simp [chainRel] at hrel
      | cons ps pssT =>
        obtain ⟨abuf, an⟩ := a
        obtain ⟨hn, hnsz, hbuf, hps, hrelT⟩ := hrel
        dsimp only at hn hnsz hbuf
        subst hn
        subst hbuf
        have hplen := chainRel_pair_lengths C secret size E plvl ps hps
        have hone := hpsne ps (by simp)
        have hle : 64 * ps.length ≤ size := hnsz
        have hbuflen : (nodeBuf size ps).length = size :=
          nodeBuf_length size ps hplen hle
        -- the head buffer is emitted as an inner node and is a good subtree
        have hgn : goodTree C secret size
            (E ++ [⟨plvl + 1, nodeBuf size ps,
                    (marshalBlock C (nodeBuf size ps) secret).1,
                    (marshalBlock C (nodeBuf size ps) secret).2.1,
                    (marshalBlock C (nodeBuf size ps) secret).2.2⟩]) (plvl + 1)
            ((marshalBlock C (nodeBuf size ps) secret).2.1,
             (marshalBlock C (nodeBuf size ps) secret).2.2) (covers1 ps) := by
          refine ⟨ps, hone, hle, rfl, ?_, rfl, ?_⟩
          · intro q hq
            exact ⟨goodTree_mono C secret size E _
              (fun x hx => List.mem_append_left _ hx) plvl q.1 q.2
              (hps q hq).1, (hps q hq).2⟩
          · exact ⟨plvl + 1, by simp⟩
        have hrelT' := chainRel_mono C secret size E
          (E ++ [⟨plvl + 1, nodeBuf size ps,
                  (marshalBlock C (nodeBuf size ps) secret).1,
                  (marshalBlock C (nodeBuf size ps) secret).2.1,
                  (marshalBlock C (nodeBuf size ps) secret).2.2⟩])
          (fun x hx => List.mem_append_left _ hx) (plvl + 1) (b :: rest)
          pssT hrelT
        obtain ⟨pss2, hrel2, hcov2, hne2, hemit2⟩ :=
          recurAccumulate_rel C secret size hdvd h128 HZ (b :: rest) pssT
            (E ++ [⟨plvl + 1, nodeBuf size ps,
                    (marshalBlock C (nodeBuf size ps) secret).1,
                    (marshalBlock C (nodeBuf size ps) secret).2.1,
                    (marshalBlock C (nodeBuf size ps) secret).2.2⟩])
            (plvl + 1) (plvl + 1 + 1)
            ((marshalBlock C (nodeBuf size ps) secret).2.1,
             (marshalBlock C (nodeBuf size ps) secret).2.2)
            (covers1 ps) hrelT' hgn (HZ _)
            (fun p hp => hpsne p (List.mem_cons_of_mem ps (List.mem_of_mem_drop hp)))
            (by omega)
        have hstep : flush C secret size (fuel + 1) (plvl + 1)
              (⟨nodeBuf size ps, 64 * ps.length⟩ :: b :: rest)
            = match flush C secret size fuel (plvl + 1 + 1)
                  (recurAccumulate C secret size (plvl + 1 + 1) (b :: rest)
                    (marshalBlock C (nodeBuf size ps) secret).2.1
                    (marshalBlock C (nodeBuf size ps) secret).2.2).1 with
              | none => none
              | some (es2x, rootx) =>
                  some (⟨plvl + 1, nodeBuf size ps,
                         (marshalBlock C (nodeBuf size ps) secret).1,
                         (marshalBlock C (nodeBuf size ps) secret).2.1,
                         (marshalBlock C (nodeBuf size ps) secret).2.2⟩
                          :: ((recurAccumulate C secret size (plvl + 1 + 1)
                                (b :: rest)
                                (marshalBlock C (nodeBuf size ps) secret).2.1
                                (marshalBlock C (nodeBuf size ps) secret).2.2).2
                              ++ es2x), rootx) := by
          simp only [flush]
        rw [hstep] at hres
        cases hflush : flush C secret size fuel (plvl + 1 + 1)
            (recurAccumulate C secret size (plvl + 1 + 1) (b :: rest)
              (marshalBlock C (nodeBuf size ps) secret).2.1
              (marshalBlock C (nodeBuf size ps) secret).2.2).1 with
        | none =>
          rw [hflush] at hres
          simp at hres
        | some pr2 =>
          obtain ⟨es2x, rootx⟩ := pr2
          rw [hflush] at hres
          simp only [Option.some.injEq, Prod.mk.injEq] at hres
          obtain ⟨h1, h2⟩ := hres
          subst h1
          subst h2
          obtain ⟨hroot, hbs, hemitx⟩ :=
            ih _ pss2 _ (plvl + 1) es2x rootx hrel2 hne2 hflush
          refine ⟨?_, hbs, ?_⟩
          · have hEE : E ++ (⟨plvl + 1, nodeBuf size ps,
                 (marshalBlock C (nodeBuf size ps) secret).1,
                 (marshalBlock C (nodeBuf size ps) secret).2.1,
                 (marshalBlock C (nodeBuf size ps) secret).2.2⟩
                  :: ((recurAccumulate C secret size (plvl + 1 + 1) (b :: rest)
                        (marshalBlock C (nodeBuf size ps) secret).2.1
                        (marshalBlock C (nodeBuf size ps) secret).2.2).2
                      ++ es2x))
              = ((E ++ [⟨plvl + 1, nodeBuf size ps,
                   (marshalBlock C (nodeBuf size ps) secret).1,
                   (marshalBlock C (nodeBuf size ps) secret).2.1,
                   (marshalBlock C (nodeBuf size ps) secret).2.2⟩])
                 ++ (recurAccumulate C secret size (plvl + 1 + 1) (b :: rest)
                      (marshalBlock C (nodeBuf size ps) secret).2.1
                      (marshalBlock C (nodeBuf size ps) secret).2.2).2)
                ++ es2x := by
              simp
            rw [hEE, chainCovers_cons, ← hcov2]
            exact hroot
          · intro e he
            simp only [List.mem_cons, List.mem_append] at he
            rcases he with he | he | he
            · subst he
              refine ⟨⟨hbuflen, rfl, rfl, rfl⟩,
                ⟨ps, hone, hle, rfl, ?_⟩, by simp⟩
              intro q hq
              exact ⟨hplen q hq, (hps q hq).2⟩
            · exact hemit2 e he
            · exact hemitx e he

/-- Running the encode loop over content blocks of full size preserves
the chain coupling, appends the blocks to the covered content in order,
and emits only well-formed blocks (content blocks at level 0, inner
nodes otherwise). -/
theorem encodeSteps_rel (C : Crypto) (secret : List Byte) (size : Nat)
    (hdvd : 64 ∣ size) (h128 : 128 ≤ size)
    (HZ : ∀ ub, refKeyPairAllZero (marshalBlock C ub secret).2.1
        (marshalBlock C ub secret).2.2 = false) :
    ∀ (blocks : List (List Byte)) (chain : List AccState)
      (pss : List (List (RK × List (List Byte)))) (es0 : List EmitRec),
      chainRel C secret size es0 0 chain pss →
      (∀ ps ∈ pss.drop 1, 1 ≤ ps.length) →
      (∀ b ∈ blocks, b.length = size) →
      ∃ pss',
        chainRel C secret size
          (encodeSteps C secret size (chain, es0) blocks).2 0
          (encodeSteps C secret size (chain, es0) blocks).1 pss' ∧
        chainCovers pss' = chainCovers pss ++ blocks ∧
        (∀ ps ∈ pss'.drop 1, 1 ≤ ps.length) ∧
        ((∀ ps ∈ pss, 1 ≤ ps.length) → ∀ ps ∈ pss', 1 ≤ ps.length) ∧
        (blocks ≠ [] → ∀ ps ∈ pss', 1 ≤ ps.length) ∧
        (∀ e ∈ (encodeSteps C secret size (chain, es0) blocks).2,
           e ∈ es0 ∨ (emitOK C secret size e ∧
             (1 ≤ e.level → innerShape size e))) := by
  intro blocks
  induction blocks with
  | nil =>
    intro chain pss es0 hrel hne hblen
    refine ⟨pss, hrel, by simp, hne, fun h => h, by simp, ?_⟩
    intro e he
    exact Or.inl he
  | cons b bs ihb =>
    intro chain pss es0 hrel hne hblen
    have hlenb : b.length = size := hblen b (by simp)
    -- the content block record
    have hg : goodTree C secret size
        (es0 ++ [⟨0, b, (marshalBlock C b secret).1,
                  (marshalBlock C b secret).2.1,
                  (marshalBlock C b secret).2.2⟩]) 0
        ((marshalBlock C b secret).2.1, (marshalBlock C b secret).2.2) [b] :=
      ⟨b, rfl, hlenb, rfl, 0, by simp⟩
    have hrel' := chainRel_mono C secret size es0
      (es0 ++ [⟨0, b, (marshalBlock C b secret).1,
                (marshalBlock C b secret).2.1,
                (marshalBlock C b secret).2.2⟩])
      (fun x hx => List.mem_append_left _ hx) 0 chain pss hrel
    obtain ⟨pss1, hrel1, hcov1, hall1, hemit1⟩ :=
      recurAccumulate_rel C secret size hdvd h128 HZ chain pss
        (es0 ++ [⟨0, b, (marshalBlock C b secret).1,
                  (marshalBlock C b secret).2.1,
                  (marshalBlock C b secret).2.2⟩]) 0 1
        ((marshalBlock C b secret).2.1, (marshalBlock C b secret).2.2) [b]
        hrel' hg (HZ b) hne (by omega)
    have hstep : encodeSteps C secret size (chain, es0) (b :: bs)
        = encodeSteps C secret size
            ((recurAccumulate C secret size 1 chain
                (marshalBlock C b secret).2.1
                (marshalBlock C b secret).2.2).1,
             es0 ++ (⟨0, b, (marshalBlock C b secret).1,
                      (marshalBlock C b secret).2.1,
                      (marshalBlock C b secret).2.2⟩
                :: (recurAccumulate C secret size 1 chain
                      (marshalBlock C b secret).2.1
                      (marshalBlock C b secret).2.2).2)) bs := by
      simp only [encodeSteps, marshalAccumulate]
    have hEeq : es0 ++ (⟨0, b, (marshalBlock C b secret).1,
                 (marshalBlock C b secret).2.1,
                 (marshalBlock C b secret).2.2⟩
            :: (recurAccumulate C secret size 1 chain
                  (marshalBlock C b secret).2.1
                  (marshalBlock C b secret).2.2).2)
        = (es0 ++ [⟨0, b, (marshalBlock C b secret).1,
                    (marshalBlock C b secret).2.1,
                    (marshalBlock C b secret).2.2⟩])
          ++ (recurAccumulate C secret size 1 chain
                (marshalBlock C b secret).2.1
                (marshalBlock C b secret).2.2).2 := by
      simp
    obtain ⟨pss2, hrel2, hcov2, hdrop2, hcond2, hne2, hemit2⟩ :=
      ihb (recurAccumulate C secret size 1 chain
            (marshalBlock C b secret).2.1
            (marshalBlock C b secret).2.2).1 pss1
        ((es0 ++ [⟨0, b, (marshalBlock C b secret).1,
                   (marshalBlock C b secret).2.1,
                   (marshalBlock C b secret).2.2⟩])
          ++ (recurAccumulate C secret size 1 chain
                (marshalBlock C b secret).2.1
                (marshalBlock C b secret).2.2).2)
        hrel1 (fun p hp => hall1 p (List.mem_of_mem_drop hp))
        (fun x hx => hblen x (List.mem_cons_of_mem b hx))
    rw [hstep, hEeq]
    refine ⟨pss2, hrel2, ?_, hdrop2, ?_, ?_, ?_⟩
    · rw [hcov2, hcov1]
      simp
    · intro _
      exact hcond2 hall1
    · intro _
      exact hcond2 hall1
    · intro e he
      rcases hemit2 e he with hin | hok
      · rw [List.mem_append] at hin
        rcases hin with hin | hin
        · rw [List.mem_append] at hin
          rcases hin with hin | hin
          · exact Or.inl hin
          · simp only [List.mem_singleton] at hin
            subst hin
            refine Or.inr ⟨⟨hlenb, rfl, rfl, rfl⟩, ?_⟩
            intro hlv
            simp at hlv
        · rcases hemit1 e hin with ⟨hOK, hIS, _⟩
          exact Or.inr ⟨hOK, fun _ => hIS⟩
      · exact Or.inr hok

theorem splitBlocksF_lengths (size : Nat) (hpos : 0 < size) :
    ∀ (fuel : Nat) (input : List Byte), input.length ≤ fuel →
      ∀ b ∈ splitBlocksF size fuel input, b.length = size := by
  intro fuel
  induction fuel with
  | zero =>
    intro input hfu b hb
    have : input = [] := by
      cases input with
      | nil => rfl
      | cons x xs => simp at hfu
    subst this
    simp only [splitBlocksF, List.mem_singleton] at hb
    subst hb
    exact padContentBlock_length [] size (by simpa using hpos)
  | succ fuel ihf =>
    intro input hfu b hb
    simp only [splitBlocksF] at hb
    by_cases hg : 0 < size ∧ size ≤ input.length
    · rw [if_pos hg] at hb
      simp only [List.mem_cons] at hb
      rcases hb with hb | hb
      · subst hb
        simp only [List.length_take]
        omega
      · exact ihf (input.drop size) (by simp; omega) b hb
    · rw [if_neg hg] at hb
      simp only [List.mem_singleton] at hb
      subst hb
      exact padContentBlock_length input size (by omega)

theorem splitBlocks_lengths (size : Nat) (hpos : 0 < size) (input : List Byte) :
    ∀ b ∈ splitBlocks size input, b.length = size :=
  splitBlocksF_lengths size hpos input.length input (Nat.le_refl _)

theorem splitBlocksF_decomp (size : Nat) (hpos : 0 < size) :
    ∀ (fuel : Nat) (input : List Byte), input.length ≤ fuel →
      ∃ full rest,
        splitBlocksF size fuel input = full ++ [padContentBlock rest size] ∧
        rest.length < size ∧ full.flatten ++ rest = input ∧
        (∀ b ∈ full, b.length = size) := by
  intro fuel
  induction fuel with
  | zero =>
    intro input hfu
    have : input = [] := by
      cases input with
      | nil => rfl
      | cons x xs => simp at hfu
    subst this
    exact ⟨[], [], rfl, by simpa using hpos, by simp, by simp⟩
  | succ fuel ihf =>
    intro input hfu
    by_cases hg : 0 < size ∧ size ≤ input.length
    · obtain ⟨full, rest, heq, hlt, hjoin, hlens⟩ :=
        ihf (input.drop size) (by simp; omega)
      refine ⟨input.take size :: full, rest, ?_, hlt, ?_, ?_⟩
      · simp only [splitBlocksF, if_pos hg, heq, List.cons_append]
      · simp only [List.flatten_cons, List.append_assoc, hjoin]
        exact List.take_append_drop size input
      · intro b hb
        simp only [List.mem_cons] at hb
        rcases hb with hb | hb
        · subst hb
          simp only [List.length_take]
          omega
        · exact hlens b hb
    · refine ⟨[], input, ?_, by omega, by simp, by simp⟩
      simp only [splitBlocksF, if_neg hg]
      simp

theorem splitBlocks_decomp (size : Nat) (hpos : 0 < size) (input : List Byte) :
    ∃ full rest,
      splitBlocks size input = full ++ [padContentBlock rest size] ∧
      rest.length < size ∧ full.flatten ++ rest = input ∧
      (∀ b ∈ full, b.length = size) :=
  splitBlocksF_decomp size hpos input.length input (Nat.le_refl _)

/-- Top-level encoder relation: a successful encode produces an emission
list and a root capability such that the root names a correct subtree
covering exactly the split-and-padded content blocks of the input, and
every emitted block is well formed. -/
theorem encode_rel (C : Crypto) (secret : List Byte) (size : Nat)
    (input : List Byte) (es : List EmitRec) (root : Ref)
    (hsz : size = 1024 ∨ size = 32 * 1024)
    (HZ : ∀ ub, refKeyPairAllZero (marshalBlock C ub secret).2.1
        (marshalBlock C ub secret).2.2 = false)
    (hres : encode C secret size input = some (es, root)) :
    goodTree C secret size es root.level (root.ref, root.key)
        (splitBlocks size input) ∧
    root.blockSize = size ∧
    (∀ e ∈ es, emitOK C secret size e ∧ (1 ≤ e.level → innerShape size e)) := by
  have hdvd : (64 : Nat) ∣ size := by
    rcases hsz with h | h <;> subst h <;> decide
  have h128 : 128 ≤ size := by
    rcases hsz with h | h <;> subst h <;> decide
  have hpos : 0 < size := by omega
  have hmod : size % (RefSize + KeySize) = 0 := by
    rcases hsz with h | h <;> subst h <;> decide
  unfold encode at hres
  rw [if_neg (by simp [hmod])] at hres
  dsimp only at hres
  have hrel0 : chainRel C secret size [] 0 [accNew size] [[]] := by
    refine ⟨by simp [accNew], by simp [accNew], ?_, by simp, trivial⟩
    rw [nodeBuf_nil]
    rfl
  obtain ⟨pss1, hrel1, hcov1, hdrop1, _, hne1, hemit1⟩ :=
    encodeSteps_rel C secret size hdvd h128 HZ (splitBlocks size input)
      [accNew size] [[]] [] hrel0 (by simp)
      (splitBlocks_lengths size hpos input)
  have hblocksne : splitBlocks size input ≠ [] := by
    obtain ⟨full, rest, heq, -, -, -⟩ := splitBlocks_decomp size hpos input
    rw [heq]
    simp
  have hall1 := hne1 hblocksne
  cases hflush : flush C secret size
      ((encodeSteps C secret size ([accNew size], [])
          (splitBlocks size input)).1.length * (size / 64 + 1) + 1) 1
      (encodeSteps C secret size ([accNew size], [])
        (splitBlocks size input)).1 with
  | none =>
    rw [hflush] at hres
    simp at hres
  | some pr =>
    obtain ⟨es2, root2⟩ := pr
    rw [hflush] at hres
    simp only [Option.some.injEq, Prod.mk.injEq] at hres
    obtain ⟨h1, h2⟩ := hres
    subst h1
    subst h2
    obtain ⟨hgood, hbs, hemit2⟩ := flush_rel C secret size hdvd h128 HZ
      _ _ pss1 _ 0 es2 root2 hrel1 hall1 hflush
    have hcc : chainCovers pss1 = splitBlocks size input := by
      rw [hcov1]
      simp [chainCovers, covers1]
    rw [hcc] at hgood
    refine ⟨hgood, hbs, ?_⟩
    intro e he
    rw [List.mem_append] at he
    rcases he with he | he
    · rcases hemit1 e he with hin | hok
      · simp at hin
      · exact hok
    · rcases hemit2 e he with ⟨hOK, hIS, _⟩
      exact ⟨hOK, fun _ => hIS⟩

/-! Decoder-side lemmas. -/

theorem take_len_append (n : Nat) (l1 l2 : List Byte) (h : l1.length = n) :
    (l1 ++ l2).take n = l1 := by
  rw [← h, List.take_left]

theorem drop_len_append (n : Nat) (l1 l2 : List Byte) (h : l1.length = n) :
    (l1 ++ l2).drop n = l2 := by
  rw [← h, List.drop_left]

theorem storeOf_ok (es : List EmitRec) (e : EmitRec) (he : e ∈ es)
    (hinj : ∀ a ∈ es, ∀ b ∈ es, a.ref = b.ref → a.eblock = b.eblock) :
    storeOf es e.ref = Except.ok e.eblock := by
  unfold storeOf
  cases hf : es.find? (fun x => x.ref = e.ref) with
  | none =>
    exfalso
    have := List.find?_eq_none.mp hf e he
    simp at this
  | some e1 =>
    have hmem := List.mem_of_find?_eq_some hf
    have hpred := List.find?_some hf
    have href : e1.ref = e.ref := by simpa using hpred
    dsimp only
    rw [hinj e1 hmem e he href]

theorem checkedGet_ok (C : Crypto) (s : Storage) (ref : List Byte)
    (size : Nat) (b : List Byte) (hb : s ref = Except.ok b)
    (hlen : b.length = size) (hh : C.refHash b = ref) :
    checkedGet C s ref size = Except.ok b := by
  unfold checkedGet
  simp only [hb]
  rw [if_neg (by omega), if_neg (by simp [hh])]

theorem sinkWrite_ok (W : Writer σ) (p : SinkState σ) (b : List Byte)
    (hlen : p.buf.length = b.length) :
    sinkWrite W p b
      = (⟨if p.first then p.us else (W.write p.us p.buf).1, b, false⟩, none) := by
  unfold sinkWrite
  rw [if_neg (by omega)]

theorem feedSink_nil (W : Writer σ) (p : SinkState σ) : feedSink W p [] = p := rfl

theorem feedSink_cons (W : Writer σ) (p : SinkState σ) (c : List Byte)
    (cs : List (List Byte)) :
    feedSink W p (c :: cs) = feedSink W ((sinkWrite W p c).1) cs := rfl

theorem feedSink_append (W : Writer σ) (p : SinkState σ)
    (cs ds : List (List Byte)) :
    feedSink W p (cs ++ ds) = feedSink W (feedSink W p cs) ds := by
  unfold feedSink
  exact List.foldl_append _ _ _ _

theorem feedSink_buf_len (W : Writer σ) (size : Nat) :
    ∀ (cs : List (List Byte)) (p : SinkState σ),
      (∀ c ∈ cs, c.length = size) → p.buf.length = size →
      (feedSink W p cs).buf.length = size := by
  intro cs
  induction cs with
  | nil =>
    intro p _ hp
    exact hp
  | cons c cs ih =>
    intro p hcs hp
    rw [feedSink_cons]
    have hc : c.length = size := hcs c (by simp)
    rw [sinkWrite_ok W p c (by omega)]
    exact ih _ (fun x hx => hcs x (List.mem_cons_of_mem c hx)) hc

theorem feedSink_flatten (W : Writer σ) :
    ∀ (qs : List (RK × List (List Byte))) (p : SinkState σ),
      qs.foldl (fun s q => feedSink W s q.2) p
        = feedSink W p ((qs.map Prod.snd).flatten) := by
  intro qs
  induction qs with
  | nil =>
    intro p
    rfl
  | cons q qs ih =>
    intro p
    simp only [List.foldl_cons, List.map_cons, List.flatten_cons]
    rw [feedSink_append]
    exact ih _

theorem all_zero_replicate (n : Nat) :
    (List.replicate n (0 : Byte)).all (· = 0) = true := by
  simp [List.all_eq_true]

/-- The reference-key-pair loop over a packed inner-node plaintext: with
every stored pair decoding cleanly (under an invariant on the threaded
state), the loop decodes the pairs in order, stopping at the zero tail
(or the end of the node). -/
theorem decodeRKPs_chunks {τ : Type}
    (step : List Byte → List Byte → τ → τ × Option String)
    (g : τ → List (List Byte) → τ) (Inv : τ → Prop) :
    ∀ (qs : List (RK × List (List Byte))) (z fuel : Nat) (st : τ),
      (∀ q ∈ qs, (q.1.1.length = RefSize ∧ q.1.2.length = KeySize) ∧
          refKeyPairAllZero q.1.1 q.1.2 = false) →
      (∀ q ∈ qs, ∀ st', Inv st' →
          step q.1.1 q.1.2 st' = (g st' q.2, none) ∧ Inv (g st' q.2)) →
      Inv st →
      64 ∣ z →
      qs.length ≤ fuel →
      decodeRKPs step fuel
          ((qs.map (fun q => q.1.1 ++ q.1.2)).flatten ++ List.replicate z 0) st
        = (qs.foldl (fun s q => g s q.2) st, none) := by
  intro qs
  induction qs with
  | nil =>
    intro z fuel st _ _ _ hz _
    simp only [List.map_nil, List.flatten_nil, List.nil_append, List.foldl_nil]
    by_cases hz0 : z = 0
    · subst hz0
      simp [decodeRKPs]
    · have hz64 : 64 ≤ z := by
        obtain ⟨k, hk⟩ := hz
        subst hk
        omega
    -- split the zero tail into one zero pair and the rest
      have hzsplit : List.replicate z (0 : Byte)
          = List.replicate RefSize 0
            ++ (List.replicate KeySize 0 ++ List.replicate (z - 64) 0) := by
        rw [← List.replicate_add, ← List.replicate_add]
        congr 1
        simp only [RefSize, KeySize]
        omega
      have h1 : ¬(List.replicate RefSize (0 : Byte)
          ++ (List.replicate KeySize 0 ++ List.replicate (z - 64) 0)).length
            = 0 := by
        simp only [List.length_append, List.length_replicate, RefSize, KeySize]
        omega
      have h2 : ¬(List.replicate RefSize (0 : Byte)
          ++ (List.replicate KeySize 0 ++ List.replicate (z - 64) 0)).length
            < RefSize := by
        simp only [List.length_append, List.length_replicate, RefSize, KeySize]
        omega
      have h3 : ¬(List.replicate KeySize (0 : Byte)
          ++ List.replicate (z - 64) 0).length < KeySize := by
        simp only [List.length_append, List.length_replicate, KeySize]
        omega
      rw [decodeRKPs, hzsplit]
      dsimp only
      rw [if_neg h1, if_neg h2]
      rw [take_len_append RefSize _ _ (by simp),
        drop_len_append RefSize _ _ (by simp)]
      rw [if_neg h3]
      rw [take_len_append KeySize _ _ (by simp),
        drop_len_append KeySize _ _ (by simp)]
      have hzpair : refKeyPairAllZero (List.replicate RefSize (0 : Byte))
          (List.replicate KeySize (0 : Byte)) = true := by
        unfold refKeyPairAllZero
        rw [all_zero_replicate, all_zero_replicate]
        rfl
      rw [if_pos hzpair]
  | cons q qs ih =>
    intro z fuel st hlens hstep hInv hz hfu
    have hq1 := (hlens q (by simp)).1.1
    have hq2 := (hlens q (by simp)).1.2
    have hnz := (hlens q (by simp)).2
    simp only [List.map_cons, List.flatten_cons]
    rw [List.append_assoc, List.append_assoc]
    rw [decodeRKPs]
    dsimp only
    rw [if_neg (by simp only [List.length_append, hq1, RefSize]; omega)]
    rw [if_neg (by simp only [List.length_append, hq1, RefSize]; omega)]
    rw [take_len_append RefSize _ _ hq1, drop_len_append RefSize _ _ hq1]
    rw [if_neg (by simp only [List.length_append, hq2, KeySize]; omega)]
    rw [take_len_append KeySize _ _ hq2, drop_len_append KeySize _ _ hq2]
    rw [if_neg (by simp [hnz])]
    obtain ⟨hstq, hInv2⟩ := hstep q (by simp) st hInv
    rw [hstq]
    cases fuel with
    | zero => simp at hfu
    | succ fuel =>
      simp only [List.foldl_cons]
      exact ih z fuel (g st q.2)
        (fun r hr => hlens r (List.mem_cons_of_mem q hr))
        (fun r hr => hstep r (List.mem_cons_of_mem q hr)) hInv2 hz
        (by simpa using hfu)

/-- Decoding a correct subtree through the padding sink writes exactly
its covered content blocks, in order, with no error. -/
theorem decodeRecur_good (C : Crypto) (secret : List Byte) (size : Nat)
    (hdvd : 64 ∣ size) (E : List EmitRec)
    (hinj : ∀ a ∈ E, ∀ b ∈ E, a.ref = b.ref → a.eblock = b.eblock)
    {σ : Type} (W : Writer σ) :
    ∀ (lvl : Nat) (rk : RK) (cover : List (List Byte)) (p : SinkState σ),
      goodTree C secret size E lvl rk cover →
      p.buf.length = size →
      decodeRecur C (storeOf E) (⟨fun q b => sinkWrite W q b⟩ : Writer (SinkState σ))
          size lvl rk.1 rk.2 p
        = (feedSink W p cover, none) := by
  intro lvl
  induction lvl with
  | zero =>
    intro rk cover p hg hlen
    obtain ⟨P, hcov, hP, hrk, lv, hmem⟩ := hg
    subst hcov
    have hfetch : storeOf E rk.1 = Except.ok (marshalBlock C P secret).1 := by
      have h := storeOf_ok E ⟨lv, P, (marshalBlock C P secret).1, rk.1, rk.2⟩
        hmem hinj
      simpa using h
    have hr1 : rk.1 = (marshalBlock C P secret).2.1 := by rw [hrk]
    have hr2 : rk.2 = (marshalBlock C P secret).2.2 := by rw [hrk]
    have hcg : checkedGet C (storeOf E) rk.1 size
        = Except.ok (marshalBlock C P secret).1 :=
      checkedGet_ok C (storeOf E) rk.1 size (marshalBlock C P secret).1 hfetch
        (by rw [marshalBlock_eblock_length, hP])
        (by rw [hr1, marshalBlock_ref_eq])
    rw [decodeRecur, hcg]
    dsimp only
    rw [hr2, marshalBlock_decrypt]
    have hw := sinkWrite_ok W p P (by omega)
    rw [hw, feedSink_cons, feedSink_nil, hw]
  | succ l ihl =>
    intro rk cover p hg hlen
    obtain ⟨qs, hq1, hq64, hcov, hch, hrk, lv, hmem⟩ := hg
    subst hcov
    have hplen : ∀ q ∈ qs, q.1.1.length = RefSize ∧ q.1.2.length = KeySize :=
      fun q hq => goodTree_rk_lengths C secret size E l q.1 q.2 (hch q hq).1
    have hnblen : (nodeBuf size qs).length = size :=
      nodeBuf_length size qs hplen hq64
    have hfetch : storeOf E rk.1
        = Except.ok (marshalBlock C (nodeBuf size qs) secret).1 := by
      have h := storeOf_ok E ⟨lv, nodeBuf size qs,
          (marshalBlock C (nodeBuf size qs) secret).1, rk.1, rk.2⟩ hmem hinj
      simpa using h
    have hr1 : rk.1 = (marshalBlock C (nodeBuf size qs) secret).2.1 := by
      rw [hrk]
    have hr2 : rk.2 = (marshalBlock C (nodeBuf size qs) secret).2.2 := by
      rw [hrk]
    have hcg : checkedGet C (storeOf E) rk.1 size
        = Except.ok (marshalBlock C (nodeBuf size qs) secret).1 :=
      checkedGet_ok C (storeOf E) rk.1 size
        (marshalBlock C (nodeBuf size qs) secret).1 hfetch
        (by rw [marshalBlock_eblock_length, hnblen])
        (by rw [hr1, marshalBlock_ref_eq])
    rw [decodeRecur, hcg]
    dsimp only
    rw [hr2, marshalBlock_decrypt]
    rw [hnblen]
    have hloop := decodeRKPs_chunks
      (fun r k st' => decodeRecur C (storeOf E)
        (⟨fun q b => sinkWrite W q b⟩ : Writer (SinkState σ)) size l r k st')
      (fun st c => feedSink W st c)
      (fun q => q.buf.length = size)
      qs (size - 64 * qs.length) size p
      (fun q hq => ⟨hplen q hq, (hch q hq).2⟩)
      ?hstep hlen ?hz (by omega)
    case hstep =>
      intro q hq st' hInv
      constructor
      · exact ihl q.1 q.2 st' (hch q hq).1 hInv
      · exact feedSink_buf_len W size q.2 st'
          (goodTree_cover_lengths C secret size E l q.1 q.2 (hch q hq).1) hInv
    case hz =>
      obtain ⟨k, hk⟩ := hdvd
      exact ⟨k - qs.length, by omega⟩
    rw [show nodeBuf size qs
        = (qs.map (fun q => q.1.1 ++ q.1.2)).flatten
          ++ List.replicate (size - 64 * qs.length) 0 from rfl]
    rw [hloop]
    rw [feedSink_flatten]

theorem collector_write (s b : List Byte) : collector.write s b = (s ++ b, none) := rfl

theorem feedSink_collector_false (size : Nat) :
    ∀ (full : List (List Byte)) (lastb us b0 : List Byte),
      (∀ c ∈ full, c.length = size) → lastb.length = size →
      b0.length = size →
      feedSink collector ⟨us, b0, false⟩ (full ++ [lastb])
        = ⟨us ++ b0 ++ full.flatten, lastb, false⟩ := by
  intro full
  induction full with
  | nil =>
    intro lastb us b0 _ hl hb
    rw [List.nil_append, feedSink_cons, feedSink_nil]
    rw [sinkWrite_ok collector ⟨us, b0, false⟩ lastb (by simp; omega)]
    simp [collector]
  | cons c f ih =>
    intro lastb us b0 hfull hl hb
    rw [List.cons_append, feedSink_cons]
    rw [sinkWrite_ok collector ⟨us, b0, false⟩ c
      (by simp; rw [hb, hfull c (by simp)])]
    rw [if_neg Bool.false_ne_true]
    dsimp only
    rw [collector_write]
    dsimp only
    rw [ih lastb (us ++ b0) c
      (fun x hx => hfull x (List.mem_cons_of_mem c hx)) hl
      (hfull c (by simp))]
    simp [List.append_assoc]

theorem feedSink_collector (size : Nat) :
    ∀ (full : List (List Byte)) (lastb us buf : List Byte),
      (∀ c ∈ full, c.length = size) → lastb.length = size →
      buf.length = size →
      feedSink collector ⟨us, buf, true⟩ (full ++ [lastb])
        = ⟨us ++ full.flatten, lastb, false⟩ := by
  intro full
  cases full with
  | nil =>
    intro lastb us buf _ hl hb
    rw [List.nil_append, feedSink_cons, feedSink_nil]
    rw [sinkWrite_ok collector ⟨us, buf, true⟩ lastb (by simp; omega)]
    simp
  | cons c f =>
    intro lastb us buf hfull hl hb
    rw [List.cons_append, feedSink_cons]
    rw [sinkWrite_ok collector ⟨us, buf, true⟩ c
      (by simp; rw [hb, hfull c (by simp)])]
    simp only [reduceIte]
    rw [feedSink_collector_false size f lastb us c
      (fun x hx => hfull x (List.mem_cons_of_mem c hx)) hl
      (hfull c (by simp))]
    simp [List.append_assoc]

/-- C1: the decode-encode round trip.  For every input, every convergence
secret, and both block sizes: if encode succeeds (and the crypto behaves
like an ideal hash: no reference-key pair is all zero and no two distinct
emitted ciphertexts share a reference), then Decode over the storage
oracle that returns exactly the emitted ciphertext for each emitted
reference returns no error and writes exactly the input, in order, to the
output writer. -/
theorem decode_encode_roundtrip (C : Crypto) (secret : List Byte)
    (size : Nat) (input : List Byte) (es : List EmitRec) (root : Ref)
    (hsz : size = 1024 ∨ size = 32 * 1024)
    (HZ : ∀ ub, refKeyPairAllZero (marshalBlock C ub secret).2.1
        (marshalBlock C ub secret).2.2 = false)
    (hres : encode C secret size input = some (es, root))
    (hinj : ∀ a ∈ es, ∀ b ∈ es, a.ref = b.ref → a.eblock = b.eblock) :
    (Decode C (storeOf es) collector [] root).2 = none ∧
    (Decode C (storeOf es) collector [] root).1.us = input := by
  have hdvd : (64 : Nat) ∣ size := by
    rcases hsz with h | h <;> subst h <;> decide
  have hpos : 0 < size := by
    rcases hsz with h | h <;> subst h <;> decide
  obtain ⟨hgood, hbs, _⟩ := encode_rel C secret size input es root hsz HZ hres
  have hcbs : checkBlockSize root.blockSize = none := by
    rcases hsz with h | h <;> rw [hbs, h] <;> rfl
  have hsink0 : (newPaddingSink ([] : List Byte) root.blockSize).buf.length
      = size := by
    simp [newPaddingSink, hbs]
  have hdec := decodeRecur_good C secret size hdvd es hinj collector
    root.level (root.ref, root.key) (splitBlocks size input)
    (newPaddingSink ([] : List Byte) root.blockSize) hgood hsink0
  dsimp only at hdec
  obtain ⟨full, rest, hsplit, hrest, hjoin, hlens⟩ :=
    splitBlocks_decomp size hpos input
  have hpadlen : (padContentBlock rest size).length = size :=
    padContentBlock_length rest size hrest
  have hfeed : feedSink collector
      (newPaddingSink ([] : List Byte) root.blockSize) (splitBlocks size input)
      = ⟨full.flatten, padContentBlock rest size, false⟩ := by
    rw [hsplit]
    have h0 : newPaddingSink ([] : List Byte) root.blockSize
        = ⟨[], List.replicate size 0, true⟩ := by
      simp [newPaddingSink, hbs]
    rw [h0]
    rw [feedSink_collector size full (padContentBlock rest size) []
      (List.replicate size 0) hlens hpadlen (by simp)]
    simp
  unfold Decode
  rw [hcbs]
  dsimp only
  rw [hbs] at hdec hfeed ⊢
  rw [hdec, hfeed]
  dsimp only
  have hpadshape : padContentBlock rest size
      = rest ++ 0x80 :: List.replicate (size - rest.length - 1) 0 :=
    padContentBlock_short rest size hrest
  rw [sinkFlush_padded collector full.flatten (padContentBlock rest size)
    false rest (size - rest.length - 1) hpadshape]
  by_cases hr0 : rest.length = 0
  · rw [if_pos hr0]
    have : rest = [] := List.eq_nil_of_length_eq_zero hr0
    subst this
    constructor
    · rfl
    · dsimp only
      rw [← hjoin]
      simp
  · rw [if_neg hr0]
    constructor
    · rfl
    · dsimp only
      simp only [collector]
      exact hjoin

theorem splitBlocks_short (size : Nat) (input : List Byte)
    (h : input.length < size) :
    splitBlocks size input = [padContentBlock input size] := by
  unfold splitBlocks
  cases hl : input.length with
  | zero =>
    have : input = [] := by
      cases input with
      | nil => rfl
      | cons x xs => simp at hl
    subst this
    rfl
  | succ m =>
    rw [splitBlocksF, if_neg (by rintro ⟨h1, h2⟩; omega)]

/-- Encoding an input shorter than one block: exactly one content block
(the padded input) is emitted and its reference-key pair collapses into a
level-0 root. -/
theorem encode_short (C : Crypto) (secret : List Byte) (size : Nat)
    (input : List Byte)
    (hdvd : size % (RefSize + KeySize) = 0) (hlt : input.length < size) :
    encode C secret size input
      = some ([⟨0, padContentBlock input size,
               (marshalBlock C (padContentBlock input size) secret).1,
               (marshalBlock C (padContentBlock input size) secret).2.1,
               (marshalBlock C (padContentBlock input size) secret).2.2⟩],
              ⟨size, 0,
               (marshalBlock C (padContentBlock input size) secret).2.1,
               (marshalBlock C (padContentBlock input size) secret).2.2⟩) := by
  have hpos : 0 < size := by omega
  have hsz : RefSize + KeySize ≤ size :=
    Nat.le_of_dvd hpos (Nat.dvd_of_mod_eq_zero hdvd)
  rw [refSize_keySize] at hsz
  have hsplit := splitBlocks_short size input hlt
  have hr := marshalBlock_ref_length C (padContentBlock input size) secret
  have hk := marshalBlock_key_length C (padContentBlock input size) secret
  have hsteps : encodeSteps C secret size ([accNew size], [])
        [padContentBlock input size]
      = ([accAdd (accNew size)
            (marshalBlock C (padContentBlock input size) secret).2.1
            (marshalBlock C (padContentBlock input size) secret).2.2],
         [⟨0, padContentBlock input size,
           (marshalBlock C (padContentBlock input size) secret).1,
           (marshalBlock C (padContentBlock input size) secret).2.1,
           (marshalBlock C (padContentBlock input size) secret).2.2⟩]) := by
    simp only [encodeSteps, marshalAccumulate, recurAccumulate, accNew]
    rw [if_neg (by omega)]
    simp
  rw [accAdd_new size _ _ hr hk] at hsteps
  unfold encode
  rw [if_neg (by simp [hdvd]), hsplit, hsteps]
  have hflush := flush_single_collapse C secret size
      ((1 : Nat) * (size / 64 + 1) + 1) 1
      ⟨(marshalBlock C (padContentBlock input size) secret).2.1 ++
       (marshalBlock C (padContentBlock input size) secret).2.2 ++
       List.replicate (size - RefSize - KeySize) 0,
       RefSize + KeySize⟩ (by omega) rfl
  simp only [List.length_singleton] at hflush ⊢
  rw [hflush]
  have htake : ((marshalBlock C (padContentBlock input size) secret).2.1 ++
       (marshalBlock C (padContentBlock input size) secret).2.2 ++
       List.replicate (size - RefSize - KeySize) 0).take RefSize
      = (marshalBlock C (padContentBlock input size) secret).2.1 := by
    rw [List.append_assoc, ← hr, List.take_left]
  have hdrop : (((marshalBlock C (padContentBlock input size) secret).2.1 ++
       (marshalBlock C (padContentBlock input size) secret).2.2 ++
       List.replicate (size - RefSize - KeySize) 0).drop RefSize).take KeySize
      = (marshalBlock C (padContentBlock input size) secret).2.2 := by
    rw [List.append_assoc, ← hr, List.drop_left, ← hk, List.take_left]
  rw [htake, hdrop]
  simp

/-- With the concrete crypto, no marshalled reference-key pair is
all-zero: the reference's first byte is non-zero by construction. -/
theorem testC_pair_nonzero (secret : List Byte) :
    ∀ ub, refKeyPairAllZero (marshalBlock testC ub secret).2.1
        (marshalBlock testC ub secret).2.2 = false := by
  intro ub
  simp [marshalBlock, testC, refKeyPairAllZero]

/-- Witness for C1: the concrete three-byte input through encode and
Decode at block size 1024. -/
theorem decode_encode_roundtrip_witness :
    (Decode testC
      (storeOf [⟨0, padContentBlock [1, 2, 3] 1024,
        (marshalBlock testC (padContentBlock [1, 2, 3] 1024) []).1,
        (marshalBlock testC (padContentBlock [1, 2, 3] 1024) []).2.1,
        (marshalBlock testC (padContentBlock [1, 2, 3] 1024) []).2.2⟩])
      collector []
      ⟨1024, 0,
       (marshalBlock testC (padContentBlock [1, 2, 3] 1024) []).2.1,
       (marshalBlock testC (padContentBlock [1, 2, 3] 1024) []).2.2⟩).2
      = none ∧
    (Decode testC
      (storeOf [⟨0, padContentBlock [1, 2, 3] 1024,
        (marshalBlock testC (padContentBlock [1, 2, 3] 1024) []).1,
        (marshalBlock testC (padContentBlock [1, 2, 3] 1024) []).2.1,
        (marshalBlock testC (padContentBlock [1, 2, 3] 1024) []).2.2⟩])
      collector []
      ⟨1024, 0,
       (marshalBlock testC (padContentBlock [1, 2, 3] 1024) []).2.1,
       (marshalBlock testC (padContentBlock [1, 2, 3] 1024) []).2.2⟩).1.us
      = [1, 2, 3] :=
  decode_encode_roundtrip testC [] 1024 [1, 2, 3] _ _ (Or.inl rfl)
    (testC_pair_nonzero [])
    (encode_short testC [] 1024 [1, 2, 3] (by decide) (by decide))
    (by
      intro a ha b hb _
      simp only [List.mem_singleton] at ha hb
      rw [ha, hb])

/-- Running the encode loop over blocks that all fit into the head
accumulator: each block's pair is appended, no inner node is emitted. -/
theorem encodeSteps_fill (C : Crypto) (secret : List Byte) (size : Nat) :
    ∀ (blocks : List (List Byte)) (ps : List (RK × List (List Byte)))
      (es0 : List EmitRec),
      (∀ q ∈ ps, q.1.1.length = RefSize ∧ q.1.2.length = KeySize) →
      64 * (ps.length + blocks.length) ≤ size →
      encodeSteps C secret size ([⟨nodeBuf size ps, 64 * ps.length⟩], es0) blocks
        = ([⟨nodeBuf size (ps ++ blocks.map (fun b =>
              (((marshalBlock C b secret).2.1, (marshalBlock C b secret).2.2),
               [b]))),
            64 * (ps.length + blocks.length)⟩],
           es0 ++ blocks.map (fun b => ⟨0, b, (marshalBlock C b secret).1,
              (marshalBlock C b secret).2.1, (marshalBlock C b secret).2.2⟩)) := by
  intro blocks
  induction blocks with
  | nil =>
    intro ps es0 _ _
    simp [encodeSteps]
  | cons b bs ih =>
    intro ps es0 hplen hcap
    have hstep : encodeSteps C secret size
          ([⟨nodeBuf size ps, 64 * ps.length⟩], es0) (b :: bs)
        = encodeSteps C secret size
            (accAdd ⟨nodeBuf size ps, 64 * ps.length⟩
               (marshalBlock C b secret).2.1
               (marshalBlock C b secret).2.2 :: [],
             es0 ++ [⟨0, b, (marshalBlock C b secret).1,
                      (marshalBlock C b secret).2.1,
                      (marshalBlock C b secret).2.2⟩]) bs := by
      simp only [encodeSteps, marshalAccumulate, recurAccumulate]
      rw [if_neg (by simp only [List.length_cons] at hcap; omega)]
    rw [hstep]
    rw [accAdd_nodeBuf size ps
      ((marshalBlock C b secret).2.1, (marshalBlock C b secret).2.2) [b]
      hplen (marshalBlock_ref_length C b secret)
      (marshalBlock_key_length C b secret) (by simp at hcap ⊢; omega)]
    have := ih (ps ++ [(((marshalBlock C b secret).2.1,
          (marshalBlock C b secret).2.2), [b])])
      (es0 ++ [⟨0, b, (marshalBlock C b secret).1,
               (marshalBlock C b secret).2.1,
               (marshalBlock C b secret).2.2⟩])
      (by
        intro q hq
        rw [List.mem_append] at hq
        rcases hq with hq | hq
        · exact hplen q hq
        · simp only [List.mem_singleton] at hq
          subst hq
          exact ⟨marshalBlock_ref_length C b secret,
            marshalBlock_key_length C b secret⟩)
      (by simp at hcap ⊢; omega)
    rw [show ps.length + 1 = (ps ++ [(((marshalBlock C b secret).2.1,
          (marshalBlock C b secret).2.2), [b])]).length by simp]
    rw [this]
    simp [List.append_assoc, Nat.add_assoc, Nat.add_comm, Nat.add_left_comm]

theorem flatten_const_length (size : Nat) :
    ∀ (l : List (List Byte)), (∀ b ∈ l, b.length = size) →
      l.flatten.length = size * l.length := by
  intro l
  induction l with
  | nil => intro _; simp
  | cons b t ih =>
    intro h
    simp only [List.flatten_cons, List.length_append, List.length_cons]
    rw [h b (List.mem_cons_self b t), ih (fun x hx => h x (List.mem_cons_of_mem b hx))]
    ring

/-- Splitting an input whose length is an exact multiple of the block
size: all blocks are full and a final block of pure padding follows. -/
theorem splitBlocks_exact (size : Nat) (hpos : 0 < size) (input : List Byte)
    (k : Nat) (hlen : input.length = k * size) :
    ∃ full, splitBlocks size input = full ++ [padContentBlock [] size] ∧
      full.length = k ∧ full.flatten = input ∧ (∀ b ∈ full, b.length = size) := by
  obtain ⟨full, rest, heq, hrlen, hflat, hlens⟩ := splitBlocks_decomp size hpos input
  have hfl : full.flatten.length = size * full.length := flatten_const_length size full hlens
  have h1 : size * full.length + rest.length = k * size := by
    have := congrArg List.length hflat
    simp only [List.length_append] at this
    rw [hfl] at this
    omega
  have hfk : full.length = k := by
    rcases Nat.lt_trichotomy full.length k with h | h | h
    · exfalso
      have h2 : size * (full.length + 1) ≤ size * k := Nat.mul_le_mul_left size h
      rw [Nat.mul_succ] at h2
      have h3 : size * k = k * size := Nat.mul_comm size k
      omega
    · exact h
    · exfalso
      have h2 : size * (k + 1) ≤ size * full.length := Nat.mul_le_mul_left size h
      rw [Nat.mul_succ] at h2
      have h3 : size * k = k * size := Nat.mul_comm size k
      omega
  have hr0 : rest.length = 0 := by
    have h3 : size * k = k * size := Nat.mul_comm size k
    rw [hfk] at h1
    omega
  have hrnil : rest = [] := List.eq_nil_of_length_eq_zero hr0
  subst hrnil
  exact ⟨full, heq, hfk, by simpa using hflat, hlens⟩

/-- Encoding an input of exactly one block size: two content blocks (the
input and a block of pure padding), one inner node holding their two
pairs, and a level-1 root naming that inner node. -/
theorem encode_twoBlocks (C : Crypto) (secret : List Byte) (size : Nat)
    (input : List Byte) (hdvd : size % (RefSize + KeySize) = 0)
    (hsz : 128 < size) (hlen : input.length = size) :
    encode C secret size input
      = some ([⟨0, input, (marshalBlock C input secret).1,
                (marshalBlock C input secret).2.1,
                (marshalBlock C input secret).2.2⟩,
               ⟨0, padContentBlock [] size,
                (marshalBlock C (padContentBlock [] size) secret).1,
                (marshalBlock C (padContentBlock [] size) secret).2.1,
                (marshalBlock C (padContentBlock [] size) secret).2.2⟩,
               ⟨1, nodeBuf size
                   [(((marshalBlock C input secret).2.1,
                      (marshalBlock C input secret).2.2), [input]),
                    (((marshalBlock C (padContentBlock [] size) secret).2.1,
                      (marshalBlock C (padContentBlock [] size) secret).2.2),
                     [padContentBlock [] size])],
                (marshalBlock C (nodeBuf size
                   [(((marshalBlock C input secret).2.1,
                      (marshalBlock C input secret).2.2), [input]),
                    (((marshalBlock C (padContentBlock [] size) secret).2.1,
                      (marshalBlock C (padContentBlock [] size) secret).2.2),
                     [padContentBlock [] size])]) secret).1,
                (marshalBlock C (nodeBuf size
                   [(((marshalBlock C input secret).2.1,
                      (marshalBlock C input secret).2.2), [input]),
                    (((marshalBlock C (padContentBlock [] size) secret).2.1,
                      (marshalBlock C (padContentBlock [] size) secret).2.2),
                     [padContentBlock [] size])]) secret).2.1,
                (marshalBlock C (nodeBuf size
                   [(((marshalBlock C input secret).2.1,
                      (marshalBlock C input secret).2.2), [input]),
                    (((marshalBlock C (padContentBlock [] size) secret).2.1,
                      (marshalBlock C (padContentBlock [] size) secret).2.2),
                     [padContentBlock [] size])]) secret).2.2⟩],
              ⟨size, 1,
               (marshalBlock C (nodeBuf size
                   [(((marshalBlock C input secret).2.1,
                      (marshalBlock C input secret).2.2), [input]),
                    (((marshalBlock C (padContentBlock [] size) secret).2.1,
                      (marshalBlock C (padContentBlock [] size) secret).2.2),
                     [padContentBlock [] size])]) secret).2.1,
               (marshalBlock C (nodeBuf size
                   [(((marshalBlock C input secret).2.1,
                      (marshalBlock C input secret).2.2), [input]),
                    (((marshalBlock C (padContentBlock [] size) secret).2.1,
                      (marshalBlock C (padContentBlock [] size) secret).2.2),
                     [padContentBlock [] size])]) secret).2.2⟩) := by
  have hpos : 0 < size := by omega
  obtain ⟨full, hsb, hflen, hflat, hfl⟩ :=
    splitBlocks_exact size hpos input 1 (by rw [hlen, Nat.one_mul])
  have hfull : full = [input] := by
    cases full with
    | nil => simp at hflen
    | cons b t =>
      cases t with
      | nil => simp only [List.flatten_cons, List.flatten_nil, List.append_nil] at hflat
               rw [hflat]
      | cons c u => simp at hflen
  subst hfull
  simp only [List.cons_append, List.nil_append] at hsb
  unfold encode
  rw [if_neg (by simp [hdvd])]
  rw [hsb]
  have hnew : ([accNew size] : List AccState)
      = [⟨nodeBuf size [], 64 * ([] : List (RK × List (List Byte))).length⟩] := by
    simp [accNew, nodeBuf_nil]
  rw [hnew]
  rw [encodeSteps_fill C secret size [input, padContentBlock [] size] [] []
    (by intro q hq; simp at hq) (by simp; omega)]
  simp only [List.map_cons, List.map_nil, List.nil_append, List.length_nil,
    List.length_cons, Nat.zero_add]
  rw [flush_single_emit C secret size _ 1 _ (by positivity)
    (by simp only [RefSize, KeySize]; omega)]
  simp

theorem setBytes_length (l : List Byte) (off : Nat) (d : List Byte)
    (h : off + d.length ≤ l.length) : (setBytes l off d).length = l.length := by
  unfold setBytes
  simp only [List.length_append, List.length_take, List.length_drop]
  omega

theorem accAdd_length (size : Nat) (a : AccState) (ref key : List Byte)
    (hbuf : a.buf.length = size) (hn : a.n + RefSize + KeySize ≤ size)
    (hr : ref.length = RefSize) (hk : key.length = KeySize) :
    (accAdd a ref key).buf.length = size ∧ (accAdd a ref key).n = a.n + 64 := by
  unfold accAdd
  dsimp only
  simp only [RefSize, KeySize] at hn hr hk
  have h1 : (setBytes a.buf a.n ref).length = a.buf.length := by
    apply setBytes_length
    omega
  have h2 : (setBytes (setBytes a.buf a.n ref) (a.n + RefSize) key).length
      = (setBytes a.buf a.n ref).length := by
    apply setBytes_length
    simp only [RefSize]
    omega
  refine ⟨by rw [h2, h1, hbuf], by simp [RefSize, KeySize]⟩

/-- Buffer-length and cursor invariant through one RecurAccumulate call:
every accumulator keeps a full-size buffer and a 64-multiple cursor that
never passes the end of the buffer; after the call every accumulator that
is not an untouched parent holds at least one pair, and every block
emitted on the way is a marshalled block of the recorded plaintext. -/
theorem recurAccumulate_lens (C : Crypto) (secret : List Byte) (size : Nat)
    (hdvd : 64 ∣ size) (hsz : 64 ≤ size) :
    ∀ (chain : List AccState) (level : Nat) (ref key : List Byte),
      ref.length = RefSize → key.length = KeySize →
      (∀ a ∈ chain, a.buf.length = size ∧ a.n ≤ size ∧ 64 ∣ a.n) →
      (∀ a ∈ (recurAccumulate C secret size level chain ref key).1,
         (a.buf.length = size ∧ a.n ≤ size ∧ 64 ∣ a.n) ∧
         (64 ≤ a.n ∨ a ∈ chain.tail)) ∧
      (∀ e ∈ (recurAccumulate C secret size level chain ref key).2,
         emitOK C secret size e) := by
  intro chain
  induction chain with
  | nil =>
    intro level ref key hr hk _
    constructor
    · intro a ha
      simp only [recurAccumulate, List.mem_singleton] at ha
      subst ha
      have hQ := accAdd_length size (accNew size) ref key (by simp [accNew])
        (by simp [accNew, RefSize, KeySize]; omega) hr hk
      have hn : (accAdd (accNew size) ref key).n = 64 := by
        rw [hQ.2]; simp [accNew]
      exact ⟨⟨hQ.1, by rw [hn]; omega, by rw [hn]⟩, Or.inl (by rw [hn])⟩
    · intro e he
      simp [recurAccumulate] at he
  | cons a rest ih =>
    intro level ref key hr hk hQ
    have hQa := hQ a (List.mem_cons_self a rest)
    have hQr : ∀ x ∈ rest, x.buf.length = size ∧ x.n ≤ size ∧ 64 ∣ x.n :=
      fun x hx => hQ x (List.mem_cons_of_mem a hx)
    by_cases hfull : a.n = size
    · simp only [recurAccumulate, if_pos hfull]
      have hih := ih (level + 1) (marshalBlock C a.buf secret).2.1
        (marshalBlock C a.buf secret).2.2
        (marshalBlock_ref_length C a.buf secret)
        (marshalBlock_key_length C a.buf secret) hQr
      constructor
      · intro x hx
        simp only [List.mem_cons] at hx
        rcases hx with hx | hx
        · subst hx
          have hQh := accAdd_length size (accReset a) ref key
            (by simp [accReset, hQa.1])
            (by simp [accReset, RefSize, KeySize]; omega) hr hk
          have hn : (accAdd (accReset a) ref key).n = 64 := by
            rw [hQh.2]; simp [accReset]
          exact ⟨⟨hQh.1, by rw [hn]; omega, by rw [hn]⟩, Or.inl (by rw [hn])⟩
        · have := hih.1 x hx
          exact ⟨this.1, this.2.imp id (fun hm => by
            simp only [List.tail_cons]
            exact List.mem_of_mem_tail hm)⟩
      · intro e he
        simp only [List.mem_cons] at he
        rcases he with he | he
        · subst he
          exact ⟨hQa.1, rfl, rfl, rfl⟩
        · exact hih.2 e he
    · simp only [recurAccumulate, if_neg hfull]
      constructor
      · intro x hx
        simp only [List.mem_cons] at hx
        rcases hx with hx | hx
        · subst hx
          obtain ⟨p, hp⟩ := hQa.2.2
          obtain ⟨q, hq⟩ := hdvd
          have hcap : a.n + RefSize + KeySize ≤ size := by
            simp only [RefSize, KeySize]
            omega
          have hQh := accAdd_length size a ref key hQa.1 hcap hr hk
          refine ⟨⟨hQh.1, by rw [hQh.2]; omega, by rw [hQh.2]; omega⟩,
            Or.inl (by rw [hQh.2]; omega)⟩
        · exact ⟨hQr x hx, Or.inr (by simpa using hx)⟩
      · intro e he
        simp at he

/-- The chain invariant through the whole encode loop, together with
wellformedness of every emission it makes. -/
theorem encodeSteps_lens (C : Crypto) (secret : List Byte) (size : Nat)
    (hdvd : 64 ∣ size) (hsz : 64 ≤ size) :
    ∀ (blocks : List (List Byte)) (st : List AccState × List EmitRec),
      (∀ b ∈ blocks, b.length = size) →
      (∀ a ∈ st.1, a.buf.length = size ∧ a.n ≤ size ∧ 64 ∣ a.n) →
      (∀ a ∈ (encodeSteps C secret size st blocks).1,
         (a.buf.length = size ∧ a.n ≤ size ∧ 64 ∣ a.n) ∧
         (64 ≤ a.n ∨ a ∈ st.1)) ∧
      (∀ e ∈ (encodeSteps C secret size st blocks).2,
         e ∈ st.2 ∨ emitOK C secret size e) := by
  intro blocks
  induction blocks with
  | nil =>
    intro st hb hQ
    constructor
    · intro a ha
      simp only [encodeSteps] at ha
      exact ⟨hQ a ha, Or.inr ha⟩
    · intro e he
      simp only [encodeSteps] at he
      exact Or.inl he
  | cons b bs ih =>
    intro st hb hQ
    have hpush := recurAccumulate_lens C secret size hdvd hsz st.1 1
      (marshalBlock C b secret).2.1 (marshalBlock C b secret).2.2
      (marshalBlock_ref_length C b secret)
      (marshalBlock_key_length C b secret) hQ
    have hstep : encodeSteps C secret size st (b :: bs)
        = encodeSteps C secret size
            ((recurAccumulate C secret size 1 st.1
               (marshalBlock C b secret).2.1 (marshalBlock C b secret).2.2).1,
             st.2 ++ ⟨0, b, (marshalBlock C b secret).1,
                      (marshalBlock C b secret).2.1,
                      (marshalBlock C b secret).2.2⟩ ::
               (recurAccumulate C secret size 1 st.1
                  (marshalBlock C b secret).2.1
                  (marshalBlock C b secret).2.2).2) bs := by
      simp only [encodeSteps, marshalAccumulate]
    rw [hstep]
    have hih := ih ((recurAccumulate C secret size 1 st.1
               (marshalBlock C b secret).2.1 (marshalBlock C b secret).2.2).1,
             st.2 ++ ⟨0, b, (marshalBlock C b secret).1,
                      (marshalBlock C b secret).2.1,
                      (marshalBlock C b secret).2.2⟩ ::
               (recurAccumulate C secret size 1 st.1
                  (marshalBlock C b secret).2.1
                  (marshalBlock C b secret).2.2).2)
      (fun x hx => hb x (List.mem_cons_of_mem b hx))
      (fun a ha => (hpush.1 a ha).1)
    constructor
    · intro a ha
      have := hih.1 a ha
      refine ⟨this.1, ?_⟩
      rcases this.2 with h64 | hmem
      · exact Or.inl h64
      · rcases (hpush.1 a hmem).2 with h64 | htail
        · exact Or.inl h64
        · exact Or.inr (List.mem_of_mem_tail htail)
    · intro e he
      rcases hih.2 e he with hm | hOK
      · simp only [List.mem_append, List.mem_cons] at hm
        rcases hm with hm | hm | hm
        · exact Or.inl hm
        · subst hm
          exact Or.inr ⟨hb b (List.mem_cons_self b bs), rfl, rfl, rfl⟩
        · exact Or.inr (hpush.2 e hm)
      · exact Or.inr hOK

/-- Every block emitted by Flush on an invariant-respecting chain is a
marshalled block of its recorded full-size plaintext. -/
theorem flush_lens (C : Crypto) (secret : List Byte) (size : Nat)
    (hdvd : 64 ∣ size) (hsz : 64 ≤ size) :
    ∀ (fuel : Nat) (level : Nat) (chain : List AccState),
      (∀ a ∈ chain, a.buf.length = size ∧ a.n ≤ size ∧ 64 ∣ a.n) →
      ∀ es2 root, flush C secret size fuel level chain = some (es2, root) →
        ∀ e ∈ es2, emitOK C secret size e := by
  intro fuel
  induction fuel with
  | zero =>
    intro level chain _ es2 root h
    simp [flush] at h
  | succ m ih =>
    intro level chain hQ es2 root h
    cases chain with
    | nil => simp [flush] at h
    | cons a rest =>
      cases rest with
      | nil =>
        by_cases hcoll : a.n = RefSize + KeySize
        · rw [flush_single_collapse C secret size (m + 1) level a (by omega) hcoll] at h
          simp only [Option.some.injEq, Prod.mk.injEq] at h
          obtain ⟨h1, _⟩ := h
          intro e he
          rw [← h1] at he
          simp at he
        · rw [flush_single_emit C secret size (m + 1) level a (by omega) hcoll] at h
          simp only [Option.some.injEq, Prod.mk.injEq] at h
          obtain ⟨h1, _⟩ := h
          intro e he
          rw [← h1] at he
          simp only [List.mem_singleton] at he
          subst he
          exact ⟨(hQ a (List.mem_cons_self a [])).1, rfl, rfl, rfl⟩
      | cons b rest2 =>
        simp only [flush] at h
        have hpush := recurAccumulate_lens C secret size hdvd hsz (b :: rest2)
          (level + 1) (marshalBlock C a.buf secret).2.1
          (marshalBlock C a.buf secret).2.2
          (marshalBlock_ref_length C a.buf secret)
          (marshalBlock_key_length C a.buf secret)
          (fun x hx => hQ x (List.mem_cons_of_mem a hx))
        cases hfl : flush C secret size m (level + 1)
            (recurAccumulate C secret size (level + 1) (b :: rest2)
               (marshalBlock C a.buf secret).2.1
               (marshalBlock C a.buf secret).2.2).1 with
        | none => rw [hfl] at h; simp at h
        | some p =>
          obtain ⟨es2', root'⟩ := p
          rw [hfl] at h
          simp only [Option.some.injEq, Prod.mk.injEq] at h
          obtain ⟨h1, _⟩ := h
          intro e he
          rw [← h1] at he
          simp only [List.mem_cons, List.mem_append] at he
          rcases he with he | he | he
          · subst he
            exact ⟨(hQ a (List.mem_cons_self a (b :: rest2))).1, rfl, rfl, rfl⟩
          · exact hpush.2 e he
          · exact ih (level + 1) _ (fun x hx => (hpush.1 x hx).1) es2' root' hfl e he

/-- C2: every block emitted during a successful encode — content block,
inner node or root block — carries a reference equal to the unkeyed
BLAKE2b-256 hash of its ciphertext, and a ciphertext of exactly the block
size, for every input, secret and both published block sizes. -/
theorem emitted_blocks_wellformed (C : Crypto) (secret input : List Byte)
    (size : Nat) (es : List EmitRec) (root : Ref)
    (hsz : size = 1024 ∨ size = 32 * 1024)
    (hres : encode C secret size input = some (es, root)) :
    ∀ e ∈ es, e.ref = C.refHash e.eblock ∧ e.eblock.length = size := by
  have hdvd : 64 ∣ size := by rcases hsz with h | h <;> subst h <;> decide
  have hsz64 : 64 ≤ size := by rcases hsz with h | h <;> subst h <;> omega
  have hpos : 0 < size := by omega
  unfold encode at hres
  have hguard : ¬(size % (RefSize + KeySize) ≠ 0) := by
    simp only [ne_eq, Decidable.not_not, RefSize, KeySize]
    rcases hsz with h | h <;> subst h <;> decide
  rw [if_neg hguard] at hres
  dsimp only at hres
  have hsteps := encodeSteps_lens C secret size hdvd hsz64
    (splitBlocks size input) ([accNew size], [])
    (splitBlocks_lengths size hpos input)
    (by intro a ha
        simp only [List.mem_singleton] at ha
        subst ha
        exact ⟨by simp [accNew], by simp [accNew], by simp [accNew]⟩)
  cases hfl : flush C secret size
      ((encodeSteps C secret size ([accNew size], [])
         (splitBlocks size input)).1.length * (size / 64 + 1) + 1) 1
      (encodeSteps C secret size ([accNew size], [])
         (splitBlocks size input)).1 with
  | none => rw [hfl] at hres; simp at hres
  | some p =>
    obtain ⟨es2, root'⟩ := p
    rw [hfl] at hres
    simp only [Option.some.injEq, Prod.mk.injEq] at hres
    obtain ⟨h1, _⟩ := hres
    have hflE := flush_lens C secret size hdvd hsz64 _ 1 _
      (fun a ha => (hsteps.1 a ha).1) es2 root' hfl
    intro e he
    rw [← h1] at he
    rw [List.mem_append] at he
    have hOK : emitOK C secret size e := by
      rcases he with he | he
      · rcases hsteps.2 e he with hm | hOK
        · simp at hm
        · exact hOK
      · exact hflE e he
    obtain ⟨hlen, heb, href, _⟩ := hOK
    refine ⟨?_, by rw [heb, marshalBlock_eblock_length, hlen]⟩
    rw [href, heb, marshalBlock_ref_eq]

set_option maxRecDepth 100000 in
/-- Witness for C2: the single block emitted when encoding the three
bytes 1, 2, 3 at block size 1024 is wellformed. -/
theorem emitted_blocks_wellformed_witness :
    (marshalBlock testC (padContentBlock [1, 2, 3] 1024) []).2.1
      = testC.refHash (marshalBlock testC (padContentBlock [1, 2, 3] 1024) []).1 ∧
    (marshalBlock testC (padContentBlock [1, 2, 3] 1024) []).1.length = 1024 :=
  emitted_blocks_wellformed testC [] [1, 2, 3] 1024 _ _ (Or.inl rfl)
    (encode_short testC [] 1024 [1, 2, 3] (by decide) (by decide))
    ⟨0, padContentBlock [1, 2, 3] 1024,
     (marshalBlock testC (padContentBlock [1, 2, 3] 1024) []).1,
     (marshalBlock testC (padContentBlock [1, 2, 3] 1024) []).2.1,
     (marshalBlock testC (padContentBlock [1, 2, 3] 1024) []).2.2⟩
    (List.mem_singleton.mpr rfl)

/-- C10: throughout any encode run, every accumulator in the chain keeps
a buffer of exactly the block size (add never writes past its end) and a
cursor that is a multiple of 64 and at most the block size; once at least
one content block has been processed, every accumulator holds between 1
and BlockSize/64 reference-key pairs. -/
theorem accumulator_chain_invariant (C : Crypto) (secret : List Byte)
    (size : Nat) (hdvd : size % (RefSize + KeySize) = 0) (hpos : 0 < size)
    (blocks : List (List Byte)) (hb : ∀ b ∈ blocks, b.length = size) :
    (∀ a ∈ (encodeSteps C secret size ([accNew size], []) blocks).1,
       a.buf.length = size ∧ a.n ≤ size ∧ 64 ∣ a.n) ∧
    (blocks ≠ [] →
      ∀ a ∈ (encodeSteps C secret size ([accNew size], []) blocks).1,
        64 ≤ a.n ∧ 1 ≤ a.n / 64 ∧ a.n / 64 ≤ size / 64) := by
  have hdvd' : 64 ∣ size := by
    simp only [RefSize, KeySize] at hdvd
    omega
  have hsz64 : 64 ≤ size := Nat.le_of_dvd hpos hdvd'
  have hQ0 : ∀ a ∈ ([accNew size] : List AccState),
      a.buf.length = size ∧ a.n ≤ size ∧ 64 ∣ a.n := by
    intro a ha
    simp only [List.mem_singleton] at ha
    subst ha
    exact ⟨by simp [accNew], by simp [accNew], by simp [accNew]⟩
  constructor
  · intro a ha
    exact ((encodeSteps_lens C secret size hdvd' hsz64 blocks
      ([accNew size], []) hb hQ0).1 a ha).1
  · intro hne a ha
    cases blocks with
    | nil => exact absurd rfl hne
    | cons b bs =>
      have hstep : encodeSteps C secret size ([accNew size], []) (b :: bs)
          = encodeSteps C secret size
              ((recurAccumulate C secret size 1 [accNew size]
                 (marshalBlock C b secret).2.1 (marshalBlock C b secret).2.2).1,
               [] ++ ⟨0, b, (marshalBlock C b secret).1,
                      (marshalBlock C b secret).2.1,
                      (marshalBlock C b secret).2.2⟩ ::
                 (recurAccumulate C secret size 1 [accNew size]
                    (marshalBlock C b secret).2.1
                    (marshalBlock C b secret).2.2).2) bs := by
        simp only [encodeSteps, marshalAccumulate]
      rw [hstep] at ha
      have hpush := recurAccumulate_lens C secret size hdvd' hsz64
        [accNew size] 1
        (marshalBlock C b secret).2.1 (marshalBlock C b secret).2.2
        (marshalBlock_ref_length C b secret)
        (marshalBlock_key_length C b secret) hQ0
      have hrest := (encodeSteps_lens C secret size hdvd' hsz64 bs
        ((recurAccumulate C secret size 1 [accNew size]
           (marshalBlock C b secret).2.1 (marshalBlock C b secret).2.2).1,
         [] ++ ⟨0, b, (marshalBlock C b secret).1,
                (marshalBlock C b secret).2.1,
                (marshalBlock C b secret).2.2⟩ ::
           (recurAccumulate C secret size 1 [accNew size]
              (marshalBlock C b secret).2.1
              (marshalBlock C b secret).2.2).2)
        (fun x hx => hb x (List.mem_cons_of_mem b hx))
        (fun x hx => (hpush.1 x hx).1)).1 a ha
      have h64 : 64 ≤ a.n := by
        rcases hrest.2 with h64 | hmem
        · exact h64
        · rcases (hpush.1 a hmem).2 with h64 | htail
          · exact h64
          · simp at htail
      have hle : a.n ≤ size := hrest.1.2.1
      exact ⟨h64, by omega, by omega⟩

/-- Witness for C10: the chain state after pushing one full content
block of threes at block size 1024. -/
theorem accumulator_chain_invariant_witness :
    (∀ a ∈ (encodeSteps testC [] 1024 ([accNew 1024], [])
         [List.replicate 1024 3]).1,
       a.buf.length = 1024 ∧ a.n ≤ 1024 ∧ 64 ∣ a.n) ∧
    ([List.replicate 1024 3] ≠ ([] : List (List Byte)) →
      ∀ a ∈ (encodeSteps testC [] 1024 ([accNew 1024], [])
           [List.replicate 1024 3]).1,
        64 ≤ a.n ∧ 1 ≤ a.n / 64 ∧ a.n / 64 ≤ 1024 / 64) :=
  accumulator_chain_invariant testC [] 1024 (by decide) (by decide)
    [List.replicate 1024 3]
    (by intro b hb
        simp only [List.mem_singleton] at hb
        subst hb
        exact List.length_replicate 1024 3)

theorem pair_ne_zero (r k : List Byte)
    (hz : refKeyPairAllZero r k = false) :
    r ++ k ≠ List.replicate 64 0 := by
  intro h
  have hall : ∀ x ∈ r ++ k, x = (0 : Byte) := by
    intro x hx
    rw [h] at hx
    exact List.eq_of_mem_replicate hx
  have htrue : refKeyPairAllZero r k = true := by
    simp only [refKeyPairAllZero, Bool.and_eq_true, List.all_eq_true,
      decide_eq_true_eq]
    exact ⟨fun x hx => hall x (List.mem_append_left _ hx),
           fun x hx => hall x (List.mem_append_right _ hx)⟩
  rw [hz] at htrue
  exact absurd htrue (by simp)

theorem nodeBuf_cons (size : Nat) (q : RK × List (List Byte))
    (qs : List (RK × List (List Byte))) :
    nodeBuf size (q :: qs) = (q.1.1 ++ q.1.2) ++ nodeBuf (size - 64) qs := by
  unfold nodeBuf
  simp only [List.map_cons, List.flatten_cons, List.length_cons,
    List.append_assoc]
  rw [show size - 64 * (qs.length + 1) = size - 64 - 64 * qs.length by omega]

theorem slotPair_head (size : Nat) (q : RK × List (List Byte))
    (qs : List (RK × List (List Byte)))
    (hr : q.1.1.length = RefSize) (hk : q.1.2.length = KeySize) :
    slotPair (nodeBuf size (q :: qs)) 0 = q.1.1 ++ q.1.2 := by
  rw [nodeBuf_cons]
  unfold slotPair
  simp only [Nat.mul_zero, List.drop_zero]
  exact take_len_append 64 _ _
    (by simp only [List.length_append, hr, hk, RefSize, KeySize])

theorem slotPair_tail (size : Nat) (q : RK × List (List Byte))
    (qs : List (RK × List (List Byte))) (i : Nat)
    (hr : q.1.1.length = RefSize) (hk : q.1.2.length = KeySize) :
    slotPair (nodeBuf size (q :: qs)) (i + 1)
      = slotPair (nodeBuf (size - 64) qs) i := by
  rw [nodeBuf_cons]
  unfold slotPair
  congr 1
  have hlen : (q.1.1 ++ q.1.2).length = 64 := by
    simp only [List.length_append, hr, hk, RefSize, KeySize]
  rw [show 64 * (i + 1) = (q.1.1 ++ q.1.2).length + 64 * i by rw [hlen]; ring]
  rw [← List.drop_drop, drop_len_append _ _ _ rfl]

/-- A slot that holds one of the packed pairs of an inner node is not the
zero pair. -/
theorem slotPair_packed_ne :
    ∀ (qs : List (RK × List (List Byte))) (size i : Nat),
      (∀ q ∈ qs, (q.1.1.length = RefSize ∧ q.1.2.length = KeySize) ∧
        refKeyPairAllZero q.1.1 q.1.2 = false) →
      i < qs.length →
      slotPair (nodeBuf size qs) i ≠ List.replicate 64 0 := by
  intro qs
  induction qs with
  | nil =>
    intro size i _ hi
    simp at hi
  | cons q qs ih =>
    intro size i hq hi
    have hhd := hq q (List.mem_cons_self q qs)
    cases i with
    | zero =>
      rw [slotPair_head size q qs hhd.1.1 hhd.1.2]
      exact pair_ne_zero q.1.1 q.1.2 hhd.2
    | succ i =>
      rw [slotPair_tail size q qs i hhd.1.1 hhd.1.2]
      exact ih (size - 64) i (fun x hx => hq x (List.mem_cons_of_mem q hx))
        (by simp only [List.length_cons] at hi; omega)

/-- All slots past the packed pairs of an inner node are the zero
pair. -/
theorem slotPair_zero_tail :
    ∀ (qs : List (RK × List (List Byte))) (size i : Nat),
      (∀ q ∈ qs, q.1.1.length = RefSize ∧ q.1.2.length = KeySize) →
      qs.length ≤ i → 64 * (i + 1) ≤ size →
      slotPair (nodeBuf size qs) i = List.replicate 64 0 := by
  intro qs
  induction qs with
  | nil =>
    intro size i _ _ hcap
    rw [nodeBuf_nil]
    unfold slotPair
    rw [List.drop_replicate, List.take_replicate]
    congr 1
    omega
  | cons q qs ih =>
    intro size i hlen hge hcap
    have hhd := hlen q (List.mem_cons_self q qs)
    cases i with
    | zero =>
      simp at hge
    | succ i =>
      rw [slotPair_tail size q qs i hhd.1 hhd.2]
      exact ih (size - 64) i (fun x hx => hlen x (List.mem_cons_of_mem q hx))
        (by simp only [List.length_cons] at hge; omega) (by omega)

/-- C6: in every inner-node block emitted by a successful encode
(including a root inner node), the all-zero 64-byte reference-key pairs
form a strict suffix of the slots: whenever slot i is the zero pair,
every later slot j is the zero pair too (the non-zero pairs are
left-packed). -/
theorem inner_zero_suffix (C : Crypto) (secret input : List Byte)
    (size : Nat) (es : List EmitRec) (root : Ref)
    (hsz : size = 1024 ∨ size = 32 * 1024)
    (HZ : ∀ ub, refKeyPairAllZero (marshalBlock C ub secret).2.1
        (marshalBlock C ub secret).2.2 = false)
    (hres : encode C secret size input = some (es, root)) :
    ∀ e ∈ es, 1 ≤ e.level → ∀ i j, i < j → 64 * (j + 1) ≤ size →
      slotPair e.ublock i = List.replicate 64 0 →
      slotPair e.ublock j = List.replicate 64 0 := by
  have hrel := encode_rel C secret size input es root hsz HZ hres
  intro e he hlvl i j hij hcap hzi
  obtain ⟨qs, h1, h2, hub, hq⟩ := (hrel.2.2 e he).2 hlvl
  rw [hub] at hzi ⊢
  have hige : qs.length ≤ i := by
    by_contra hlt
    push_neg at hlt
    exact slotPair_packed_ne qs size i hq hlt hzi
  exact slotPair_zero_tail qs size j (fun x hx => (hq x hx).1) (by omega) hcap

set_option maxRecDepth 100000 in
/-- Witness for C6: encoding one full block of fives at block size 1024
yields an inner node holding two pairs; slot 2 is the zero pair, and the
theorem gives that slot 3 is too. -/
theorem inner_zero_suffix_witness :
    slotPair (nodeBuf 1024
        [(((marshalBlock testC (List.replicate 1024 5) []).2.1,
           (marshalBlock testC (List.replicate 1024 5) []).2.2),
          [List.replicate 1024 5]),
         (((marshalBlock testC (padContentBlock [] 1024) []).2.1,
           (marshalBlock testC (padContentBlock [] 1024) []).2.2),
          [padContentBlock [] 1024])]) 3
      = List.replicate 64 0 :=
  inner_zero_suffix testC [] (List.replicate 1024 5) 1024 _ _ (Or.inl rfl)
    (testC_pair_nonzero [])
    (encode_twoBlocks testC [] 1024 (List.replicate 1024 5) (by decide)
      (by decide) (List.length_replicate 1024 5))
    ⟨1, nodeBuf 1024
        [(((marshalBlock testC (List.replicate 1024 5) []).2.1,
           (marshalBlock testC (List.replicate 1024 5) []).2.2),
          [List.replicate 1024 5]),
         (((marshalBlock testC (padContentBlock [] 1024) []).2.1,
           (marshalBlock testC (padContentBlock [] 1024) []).2.2),
          [padContentBlock [] 1024])],
     (marshalBlock testC (nodeBuf 1024
        [(((marshalBlock testC (List.replicate 1024 5) []).2.1,
           (marshalBlock testC (List.replicate 1024 5) []).2.2),
          [List.replicate 1024 5]),
         (((marshalBlock testC (padContentBlock [] 1024) []).2.1,
           (marshalBlock testC (padContentBlock [] 1024) []).2.2),
          [padContentBlock [] 1024])]) []).1,
     (marshalBlock testC (nodeBuf 1024
        [(((marshalBlock testC (List.replicate 1024 5) []).2.1,
           (marshalBlock testC (List.replicate 1024 5) []).2.2),
          [List.replicate 1024 5]),
         (((marshalBlock testC (padContentBlock [] 1024) []).2.1,
           (marshalBlock testC (padContentBlock [] 1024) []).2.2),
          [padContentBlock [] 1024])]) []).2.1,
     (marshalBlock testC (nodeBuf 1024
        [(((marshalBlock testC (List.replicate 1024 5) []).2.1,
           (marshalBlock testC (List.replicate 1024 5) []).2.2),
          [List.replicate 1024 5]),
         (((marshalBlock testC (padContentBlock [] 1024) []).2.1,
           (marshalBlock testC (padContentBlock [] 1024) []).2.2),
          [padContentBlock [] 1024])]) []).2.2⟩
    (List.mem_cons_of_mem _ (List.mem_cons_of_mem _ (List.mem_cons_self _ _)))
    (by decide) 2 3 (by decide) (by decide)
    (slotPair_zero_tail
      [(((marshalBlock testC (List.replicate 1024 5) []).2.1,
         (marshalBlock testC (List.replicate 1024 5) []).2.2),
        [List.replicate 1024 5]),
       (((marshalBlock testC (padContentBlock [] 1024) []).2.1,
         (marshalBlock testC (padContentBlock [] 1024) []).2.2),
        [padContentBlock [] 1024])] 1024 2
      (by intro x hx
          simp only [List.mem_cons, List.mem_singleton] at hx
          rcases hx with h | h | h
          · subst h
            exact ⟨marshalBlock_ref_length testC (List.replicate 1024 5) [],
                   marshalBlock_key_length testC (List.replicate 1024 5) []⟩
          · subst h
            exact ⟨marshalBlock_ref_length testC (padContentBlock [] 1024) [],
                   marshalBlock_key_length testC (padContentBlock [] 1024) []⟩
          · exact absurd h (by simp))
      (by decide) (by decide))

theorem encodeSteps_append (C : Crypto) (secret : List Byte) (size : Nat) :
    ∀ (xs ys : List (List Byte)) (st : List AccState × List EmitRec),
      encodeSteps C secret size st (xs ++ ys)
        = encodeSteps C secret size (encodeSteps C secret size st xs) ys := by
  intro xs
  induction xs with
  | nil => intro ys st; rfl
  | cons x xs ih =>
    intro ys st
    simp only [List.cons_append, encodeSteps]
    exact ih ys _

/-- Pushing one more pair into a full head accumulator: the head's node
is marshalled and emitted, a parent is created lazily for its pair, and
the reset head restarts with the new pair alone. -/
theorem recurAccumulate_overflow (C : Crypto) (secret : List Byte)
    (size : Nat) (qs : List (RK × List (List Byte)))
    (ref key : List Byte) (cv cv2 : List (List Byte))
    (hq : ∀ q ∈ qs, q.1.1.length = RefSize ∧ q.1.2.length = KeySize)
    (hfull : 64 * qs.length = size) (hsz : 64 ≤ size)
    (hr : ref.length = RefSize) (hk : key.length = KeySize) :
    recurAccumulate C secret size 1 [⟨nodeBuf size qs, 64 * qs.length⟩] ref key
      = ([⟨nodeBuf size [((ref, key), cv)], 64 * 1⟩,
          ⟨nodeBuf size [(((marshalBlock C (nodeBuf size qs) secret).2.1,
              (marshalBlock C (nodeBuf size qs) secret).2.2), cv2)], 64 * 1⟩],
         [⟨1, nodeBuf size qs, (marshalBlock C (nodeBuf size qs) secret).1,
           (marshalBlock C (nodeBuf size qs) secret).2.1,
           (marshalBlock C (nodeBuf size qs) secret).2.2⟩]) := by
  simp only [recurAccumulate]
  rw [if_pos hfull]
  have hreset : accReset ⟨nodeBuf size qs, 64 * qs.length⟩ = accNew size := by
    simp only [accReset, accNew]
    rw [nodeBuf_length size qs hq (by omega)]
  have hone : ∀ (r k : List Byte), r.length = RefSize → k.length = KeySize →
      ∀ c : List (List Byte),
      accAdd (accNew size) r k = ⟨nodeBuf size [((r, k), c)], 64 * 1⟩ := by
    intro r k hrl hkl c
    have h := accAdd_nodeBuf size [] ((r, k)) c (by intro q hq2; simp at hq2)
      hrl hkl (by simpa using hsz)
    simpa [nodeBuf_nil, accNew] using h
  rw [hreset]
  rw [hone ref key hr hk cv]
  rw [hone (marshalBlock C (nodeBuf size qs) secret).2.1
    (marshalBlock C (nodeBuf size qs) secret).2.2
    (marshalBlock_ref_length C (nodeBuf size qs) secret)
    (marshalBlock_key_length C (nodeBuf size qs) secret) cv2]

/-- C3 (amended): an input of exactly A × B bytes, A = B/64, does NOT
stop at one inner node and Level 1: the read loop emits an extra block of
pure padding as an (A+1)-st content block, which overflows the level-1
accumulator, so encoding emits A + 1 content blocks and three inner
nodes, and the root capability has Level = 2. -/
theorem encode_exact_multiple (C : Crypto) (secret input : List Byte)
    (size : Nat) (hsz : size = 1024 ∨ size = 32 * 1024)
    (hlen : input.length = (size / 64) * size) :
    ∃ es root, encode C secret size input = some (es, root) ∧
      (es.filter (fun e => e.level = 0)).length = size / 64 + 1 ∧
      (es.filter (fun e => 1 ≤ e.level)).length = 3 ∧
      root.level = 2 := by
  have hpos : 0 < size := by rcases hsz with h | h <;> subst h <;> decide
  have h64A : 64 * (size / 64) = size := by
    rcases hsz with h | h <;> subst h <;> decide
  have h128 : 128 ≤ size := by rcases hsz with h | h <;> subst h <;> decide
  have hguard : ¬(size % (RefSize + KeySize) ≠ 0) := by
    simp only [ne_eq, Decidable.not_not, RefSize, KeySize]
    rcases hsz with h | h <;> subst h <;> decide
  obtain ⟨full, hsb, hflen, hflat, hfl⟩ :=
    splitBlocks_exact size hpos input (size / 64) hlen
  unfold encode
  rw [if_neg hguard]
  dsimp only
  rw [hsb]
  rw [encodeSteps_append]
  have hnew : ([accNew size] : List AccState)
      = [⟨nodeBuf size [], 64 * ([] : List (RK × List (List Byte))).length⟩] := by
    simp [accNew, nodeBuf_nil]
  rw [hnew]
  rw [encodeSteps_fill C secret size full [] []
    (by intro q hq; simp at hq)
    (by simp only [List.length_nil, Nat.zero_add]; rw [hflen]; omega)]
  simp only [List.nil_append, List.length_nil, Nat.zero_add]
  simp only [encodeSteps, marshalAccumulate]
  have hqsA : ∀ q ∈ full.map (fun b =>
      (((marshalBlock C b secret).2.1, (marshalBlock C b secret).2.2), [b])),
      q.1.1.length = RefSize ∧ q.1.2.length = KeySize := by
    intro q hq
    simp only [List.mem_map] at hq
    obtain ⟨b, _, rfl⟩ := hq
    exact ⟨marshalBlock_ref_length C b secret, marshalBlock_key_length C b secret⟩
  have hov := recurAccumulate_overflow C secret size
    (full.map (fun b =>
      (((marshalBlock C b secret).2.1, (marshalBlock C b secret).2.2), [b])))
    (marshalBlock C (padContentBlock [] size) secret).2.1
    (marshalBlock C (padContentBlock [] size) secret).2.2
    [padContentBlock [] size]
    [nodeBuf size (full.map (fun b =>
      (((marshalBlock C b secret).2.1, (marshalBlock C b secret).2.2), [b])))]
    hqsA (by rw [List.length_map, hflen]; exact h64A) (by omega)
    (marshalBlock_ref_length C (padContentBlock [] size) secret)
    (marshalBlock_key_length C (padContentBlock [] size) secret)
  rw [List.length_map] at hov
  rw [hov]
  dsimp only
  generalize nodeBuf size (List.map (fun b =>
    (((marshalBlock C b secret).2.1, (marshalBlock C b secret).2.2), [b]))
    full) = NB
  generalize nodeBuf size [(((marshalBlock C NB secret).2.1,
    (marshalBlock C NB secret).2.2), [NB])] = B2
  generalize nodeBuf size [(((marshalBlock C (padContentBlock [] size)
      secret).2.1,
    (marshalBlock C (padContentBlock [] size) secret).2.2),
    [padContentBlock [] size])] = B1
  simp only [List.length_cons, List.length_nil]
  simp only [flush]
  simp only [recurAccumulate]
  rw [if_neg (show ¬((⟨B2, 64 * 1⟩ : AccState).n = size) from by
    dsimp only
    omega)]
  dsimp only
  rw [flush_single_emit C secret size ((0 + 1 + 1) * (size / 64 + 1)) (1 + 1)
    (accAdd ⟨B2, 64 * 1⟩ (marshalBlock C B1 secret).2.1
      (marshalBlock C B1 secret).2.2)
    (by positivity)
    (show ¬((64 * 1 + RefSize + KeySize : Nat) = RefSize + KeySize) by decide)]
  dsimp only
  refine ⟨_, _, rfl, ?_, ?_, rfl⟩
  · rw [List.filter_append, List.filter_append]
    rw [List.filter_eq_self.mpr (show ∀ e ∈ List.map (fun b =>
        (⟨0, b, (marshalBlock C b secret).1, (marshalBlock C b secret).2.1,
          (marshalBlock C b secret).2.2⟩ : EmitRec)) full,
        (fun e => decide (e.level = 0)) e = true from by
      intro e he
      simp only [List.mem_map] at he
      obtain ⟨b, _, rfl⟩ := he
      simp)]
    simp only [List.length_append, List.length_map, hflen]
    simp
  · rw [List.filter_append, List.filter_append]
    rw [show (List.map (fun b =>
        (⟨0, b, (marshalBlock C b secret).1, (marshalBlock C b secret).2.1,
          (marshalBlock C b secret).2.2⟩ : EmitRec)) full).filter
        (fun e => 1 ≤ e.level) = [] from by
      rw [List.filter_eq_nil_iff]
      intro e he
      simp only [List.mem_map] at he
      obtain ⟨b, _, rfl⟩ := he
      simp]
    simp

/-- Witness for C3 (amended): 16 × 1024 bytes of sevens at block size
1024 encode into 17 content blocks, 3 inner nodes and a level-2 root. -/
theorem encode_exact_multiple_witness :
    ∃ es root, encode testC [] 1024 (List.replicate (16 * 1024) 7)
        = some (es, root) ∧
      (es.filter (fun e => e.level = 0)).length = 1024 / 64 + 1 ∧
      (es.filter (fun e => 1 ≤ e.level)).length = 3 ∧
      root.level = 2 :=
  encode_exact_multiple testC [] (List.replicate (16 * 1024) 7) 1024
    (Or.inl rfl) (by rw [List.length_replicate])

/-- Counterexample to C3 as stated: for the 16 × 1024-byte input of
sevens at block size 1024 (A = 16), encoding does not emit A content
blocks with a single inner node above them, and the root capability's
level is not 1. -/
theorem encode_exact_multiple_counterexample :
    ∃ es root, encode testC [] 1024 (List.replicate (16 * 1024) 7)
        = some (es, root) ∧
      (es.filter (fun e => e.level = 0)).length ≠ 16 ∧
      (es.filter (fun e => 1 ≤ e.level)).length ≠ 1 ∧
      root.level ≠ 1 := by
  obtain ⟨es, root, h1, h2, h3, h4⟩ :=
    encode_exact_multiple testC [] (List.replicate (16 * 1024) 7) 1024
      (Or.inl rfl) (by rw [List.length_replicate])
  exact ⟨es, root, h1, by omega, by omega, by omega⟩

end Eris
